import Mathlib

/-!
Verification of the claim-extraction-and-header-injection core of the
traefik-jwt-decoder-plugin middleware.

Modelling conventions, used throughout:

* Go strings are modelled as `List Char` (`GoString`); Go's `len` on a string
  counts UTF-8 bytes, modelled by `utf8Len`.
* Go's `strings.ToLower` is modelled on the ASCII range only (all protected
  header names and configuration comparisons in this code base are ASCII).
* The dynamic JSON values produced by `encoding/json` into
  `map[string]interface{}` are modelled by the inductive `JsonValue`, with
  numbers restricted to exact integers (the subdomain of `float64` on which
  decimal round-tripping is exact); Go maps are modelled as association lists
  with pairwise-distinct keys, ordered by insertion.
* `http.Header` is modelled as a total function from lower-cased names to
  values, with the empty string standing for "absent" (this matches the only
  operations the plugin uses: `Get`, `Set`, `Del`, for which Go's canonical
  header keys are in bijection with the lower-cased names).
-/

namespace JwtPlugin

/-- Go strings, as lists of unicode scalar values. -/
abbrev GoString := List Char

/-- Numeric code point of a character. -/
def charVal (c : Char) : Nat := c.toNat

/-- Byte length of one character in UTF-8, as Go's `len` counts it. -/
def charUtf8Len (c : Char) : Nat :=
  if charVal c < 0x80 then 1
  else if charVal c < 0x800 then 2
  else if charVal c < 0x10000 then 3
  else 4

/-- Byte length of a string, Go's `len(s)`. -/
def utf8Len (s : GoString) : Nat := (s.map charUtf8Len).sum

/-- ASCII lower-casing of one character (model of `strings.ToLower` on the
ASCII inputs this plugin compares). -/
def lowerChar (c : Char) : Char :=
  if 'A' ≤ c ∧ c ≤ 'Z' then Char.ofNat (charVal c + 32) else c

/-- Model of `strings.ToLower` (ASCII range). -/
def goToLower (s : GoString) : GoString := s.map lowerChar

/-- Go's `unicode.IsSpace`: the Unicode White_Space property. -/
def goIsSpace (c : Char) : Bool :=
  let n := charVal c
  n == 0x09 || n == 0x0A || n == 0x0B || n == 0x0C || n == 0x0D || n == 0x20 ||
  n == 0x85 || n == 0xA0 || n == 0x1680 || (0x2000 ≤ n && n ≤ 0x200A) ||
  n == 0x2028 || n == 0x2029 || n == 0x202F || n == 0x205F || n == 0x3000

/-- Model of `strings.TrimSpace`: drop White_Space characters from both ends. -/
def trimSpace (s : GoString) : GoString :=
  (s.dropWhile goIsSpace).rdropWhile goIsSpace

/-! ## headers.go -/

/-- The protected header blacklist of `headers.go` (`protectedHeaders`). -/
def protectedHeaders : List GoString :=
  [ "host".toList, "x-forwarded-for".toList, "x-forwarded-host".toList,
    "x-forwarded-proto".toList, "x-forwarded-port".toList, "x-real-ip".toList,
    "content-length".toList, "content-type".toList, "transfer-encoding".toList ]

/-- Model of `IsProtectedHeader`: case-insensitive membership in the
protected blacklist. -/
def IsProtectedHeader (name : GoString) : Bool :=
  protectedHeaders.contains (goToLower name)

/-- Error raised by `SanitizeHeaderValue` when the value is oversized
(`"header value exceeds maximum size (%d bytes)"`). -/
inductive HeaderError where
  | sizeExceeded (maxSize : Int)
deriving DecidableEq, Repr

/-- The control-character strip of `SanitizeHeaderValue`: `strings.Map`
dropping every code point `< 0x20` or `== 0x7F`. -/
def removeControls (s : GoString) : GoString :=
  s.filter (fun c => !(charVal c < 0x20 || charVal c == 0x7F))

/-- The pure transformation `SanitizeHeaderValue` applies when the size check
passes: strip control characters, then trim surrounding whitespace. -/
def sanitizeCore (s : GoString) : GoString := trimSpace (removeControls s)

/-- Model of `SanitizeHeaderValue`: reject values longer than `maxSize`
bytes, otherwise strip control characters and trim whitespace. -/
def SanitizeHeaderValue (value : GoString) (maxSize : Int) :
    Except HeaderError GoString :=
  if (utf8Len value : Int) > maxSize then .error (.sizeExceeded maxSize)
  else .ok (sanitizeCore value)

/-- Decidable check that a string holds no control characters (no code point
`< 0x20`, none `== 0x7F`). -/
def noControl (s : GoString) : Bool :=
  s.all (fun c => 0x20 ≤ charVal c && charVal c ≠ 0x7F)

/-- The request header collection, as the function `Get` computes: lower-cased
names to values, `[]` meaning absent (Go's `""`). -/
def Headers := GoString → GoString

/-- Model of `http.Header.Get`. -/
def headerGet (h : Headers) (name : GoString) : GoString := h (goToLower name)

/-- Model of `http.Header.Set`. -/
def headerSet (h : Headers) (name v : GoString) : Headers :=
  fun k => if k = goToLower name then v else h k

/-- Model of `http.Header.Del`. -/
def headerDel (h : Headers) (name : GoString) : Headers := headerSet h name []

/-- Model of `InjectHeader` (`headers.go`): the post-call header state paired
with the returned error. Mirrors the Go control flow: protected names
short-circuit silently, the value is sanitized (size errors propagate with the
request untouched), an existing value is preserved unless `override`. -/
def InjectHeader (hdrs : Headers) (name value : GoString) (override : Bool)
    (maxSize : Int) : Headers × Option HeaderError :=
  if IsProtectedHeader name then (hdrs, none)
  else
    match SanitizeHeaderValue value maxSize with
    | .error e => (hdrs, some e)
    | .ok sanitized =>
        if headerGet hdrs name ≠ [] ∧ override = false then (hdrs, none)
        else (headerSet hdrs name sanitized, none)

/-! ## Dynamic JSON values

The values `encoding/json` unmarshals into `map[string]interface{}`:
strings, booleans, numbers, null, arrays, nested objects. Numbers are
modelled as exact integers, the subdomain of `float64` on which Go's
decimal formatting and parsing round-trip exactly; fractional and
exponent-bearing literals are outside this model. Go maps are modelled as
association lists with pairwise-distinct keys. -/
inductive JsonValue where
  | null
  | str (s : GoString)
  | bool (b : Bool)
  | num (n : Int)
  | arr (xs : List JsonValue)
  | obj (fields : List (GoString × JsonValue))
deriving Inhabited

/-- Object fields of a decoded JSON object (a Go `map[string]interface{}`). -/
abbrev Fields := List (GoString × JsonValue)

/-- Lookup of a key in an object, Go's `current[part]`. -/
def lookupField : Fields → GoString → Option JsonValue
  | [], _ => none
  | (k, v) :: rest, key => if k = key then some v else lookupField rest key

/-! ## JSON rendering (model of `encoding/json.Marshal` on `JsonValue`)

Go's `json.Marshal` serializes a map's fields in sorted key order with no
whitespace; an association list standing for a Go map is assumed stored in
that emission order, so rendering walks the list as given. String escaping
follows Go's default (HTML-escaping) encoder. -/

/-- Opening curly brace (written via its code point; 0x7B). -/
def lbrace : Char := Char.ofNat 0x7B

/-- Closing curly brace (0x7D). -/
def rbrace : Char := Char.ofNat 0x7D

/-- Lower-case hexadecimal digit for `n < 16`. -/
def hexDigit (n : Nat) : Char :=
  if n < 10 then Char.ofNat (48 + n) else Char.ofNat (97 + (n - 10))

/-- Code points Go's encoder emits as a `\uXXXX` escape: control characters,
the HTML-sensitive three, and the line/paragraph separators. -/
def needsUEscape (c : Char) : Bool :=
  charVal c < 0x20 || c == '<' || c == '>' || c == '&' ||
  charVal c == 0x2028 || charVal c == 0x2029

/-- One character of JSON string content, escaped as Go's encoder emits it. -/
def escapeChar (c : Char) : GoString :=
  if c = '"' then ['\\', '"']
  else if c = '\\' then ['\\', '\\']
  else if c = '\n' then ['\\', 'n']
  else if c = '\r' then ['\\', 'r']
  else if c = '\t' then ['\\', 't']
  else if needsUEscape c then
    ['\\', 'u', hexDigit (charVal c / 4096 % 16), hexDigit (charVal c / 256 % 16),
     hexDigit (charVal c / 16 % 16), hexDigit (charVal c % 16)]
  else [c]

/-- Rendered JSON string literal: quote, escaped content, quote. -/
def renderStr (s : GoString) : GoString :=
  '"' :: (s.flatMap escapeChar ++ ['"'])

/-- Decimal digit character for `d < 10`. -/
def digit10 (d : Nat) : Char := Char.ofNat (48 + d)

/-- Decimal digits of `n`, most significant first, onto `acc`; `fuel ≥ n`
suffices (structural recursion on fuel keeps this kernel-reducible). -/
def natDigits : Nat → Nat → GoString → GoString
  | 0, n, acc => digit10 (n % 10) :: acc
  | fuel + 1, n, acc =>
      if n < 10 then digit10 n :: acc
      else natDigits fuel (n / 10) (digit10 (n % 10) :: acc)

/-- Decimal representation of a natural number. -/
def natDecimal (n : Nat) : GoString := natDigits n n []

/-- Decimal representation of an integer (Go's `strconv` formatting of an
integral value: optional minus sign, digits, no exponent, no point). -/
def intDecimal (i : Int) : GoString :=
  (if i < 0 then ['-'] else []) ++ natDecimal i.natAbs

mutual
/-- Model of `json.Marshal` restricted to `JsonValue` (see module comment). -/
def jsonMarshal : JsonValue → GoString
  | .null => 'n' :: 'u' :: 'l' :: 'l' :: []
  | .bool true => 't' :: 'r' :: 'u' :: 'e' :: []
  | .bool false => 'f' :: 'a' :: 'l' :: 's' :: 'e' :: []
  | .num n => intDecimal n
  | .str s => renderStr s
  | .arr xs => '[' :: (marshalElems xs ++ [']'])
  | .obj fs => lbrace :: (marshalFields fs ++ [rbrace])

/-- Array elements, comma-separated. -/
def marshalElems : List JsonValue → GoString
  | [] => []
  | [x] => jsonMarshal x
  | x :: y :: rest => jsonMarshal x ++ ',' :: marshalElems (y :: rest)

/-- Object members, `"key":value`, comma-separated. -/
def marshalFields : Fields → GoString
  | [] => []
  | [(k, v)] => renderStr k ++ ':' :: jsonMarshal v
  | (k, v) :: m :: rest => renderStr k ++ ':' :: jsonMarshal v ++ ',' :: marshalFields (m :: rest)
end

/-! ## claims.go -/

/-- Errors of `ExtractClaim`, tagged with the data their `fmt.Errorf`
messages carry. -/
inductive ClaimError where
  | depthExceeded (maxDepth : Int)
  | notFound (path : GoString)
  | notTraversable (part : GoString)
deriving DecidableEq, Repr

/-- Model of `strings.Split(s, ".")`: split around every dot; always returns
at least one (possibly empty) segment. -/
def splitOnDot : GoString → List GoString
  | [] => [[]]
  | c :: rest =>
      if c = '.' then [] :: splitOnDot rest
      else
        match splitOnDot rest with
        | [] => [[c]]
        | seg :: segs => (c :: seg) :: segs

/-- The traversal loop of `ExtractClaim`: walk the split segments, looking
each up in the current object; a non-final segment must resolve to a nested
object. `path` is only reported in errors, as the Go code does. -/
def extractLoop (path : GoString) : List GoString → Fields → Except ClaimError JsonValue
  | [], _ => .error (.notFound path)
  | part :: rest, cur =>
      match lookupField cur part with
      | none => .error (.notFound path)
      | some v =>
          if rest = [] then .ok v
          else
            match v with
            | .obj nested => extractLoop path rest nested
            | _ => .error (.notTraversable part)

/-- Model of `ExtractClaim` (`claims.go`): split the dot path, enforce the
depth ceiling before any traversal, then walk the document. -/
def ExtractClaim (data : Fields) (path : GoString) (maxDepth : Int) :
    Except ClaimError JsonValue :=
  let parts := splitOnDot path
  if (parts.length : Int) > maxDepth then .error (.depthExceeded maxDepth)
  else extractLoop path parts data

/-- Join string parts with a separator, `strings.Join`. -/
def joinWith (sep : GoString) : List GoString → GoString
  | [] => []
  | [x] => x
  | x :: y :: rest => x ++ sep ++ joinWith sep (y :: rest)

mutual
/-- Model of `ConvertClaimToString` (`claims.go`): serialize a claim value.
The error side is kept for shape fidelity (`json.Marshal` cannot fail on
this value domain, so no error is ever produced). -/
def ConvertClaimToString : JsonValue → GoString → Except GoString GoString
  | .null, _ => .ok []
  | .str s, _ => .ok s
  | .bool b, _ => .ok (if b then 't' :: 'r' :: 'u' :: 'e' :: [] else 'f' :: 'a' :: 'l' :: 's' :: 'e' :: [])
  | .num n, _ => .ok (intDecimal n)
  | .arr xs, arrayFormat =>
      if arrayFormat = "json".toList then .ok (jsonMarshal (.arr xs))
      else
        match convertElems xs arrayFormat with
        | .error e => .error e
        | .ok parts => .ok (joinWith (',' :: ' ' :: []) parts)
  | .obj fs, _ => .ok (jsonMarshal (.obj fs))

/-- Recursive serialization of the elements of an array claim. -/
def convertElems : List JsonValue → GoString → Except GoString (List GoString)
  | [], _ => .ok []
  | x :: rest, arrayFormat =>
      match ConvertClaimToString x arrayFormat with
      | .error e => .error e
      | .ok s =>
          match convertElems rest arrayFormat with
          | .error e => .error e
          | .ok ss => .ok (s :: ss)
end

/-- Nested document used to witness that a path of exactly `n` segments can
resolve: `n` nested singleton objects keyed `"a"`, with a string leaf. -/
def depthDoc : Nat → Fields
  | 0 => []
  | 1 => [(['a'], .str ['v'])]
  | n + 2 => [(['a'], .obj (depthDoc (n + 1)))]

/-- Path of exactly `n` dot-separated one-letter segments, `"a.a.⋯.a"`. -/
def depthPath : Nat → GoString
  | 0 => []
  | 1 => ['a']
  | n + 2 => 'a' :: '.' :: depthPath (n + 1)

/-! ## JSON parsing (model of `encoding/json.Unmarshal` into a dynamic map)

The parser works on unicode scalar values (the byte level is bridged by
`utf8Decode` below). Numbers are accepted only in integer form, matching the
`JsonValue` number model; a fractional or exponent part is rejected here
where Go would produce a non-integral `float64` (outside this model). -/

/-- Parse errors (collapsed; `ParseJWT` folds them all into one message). -/
inductive JsonErr where
  | badSyntax
  | badUtf8
  | notObject
deriving DecidableEq, Repr

/-- JSON inter-token whitespace (Go's scanner: space, tab, CR, LF). -/
def isJsonWs (c : Char) : Bool :=
  c == ' ' || c == '\t' || c == '\r' || c == '\n'

/-- Skip inter-token whitespace. -/
def skipJsonWs (cs : GoString) : GoString := cs.dropWhile isJsonWs

/-- ASCII decimal digit test. -/
def isDigit10 (c : Char) : Bool := '0' ≤ c && c ≤ '9'

/-- Longest leading digit run and the remainder. -/
def takeDigits : GoString → GoString × GoString
  | [] => ([], [])
  | c :: rest =>
      if isDigit10 c then
        let (ds, r) := takeDigits rest
        (c :: ds, r)
      else ([], c :: rest)

/-- Numeric value of a digit run. -/
def digitsToNat (ds : GoString) : Nat :=
  ds.foldl (fun acc c => acc * 10 + (charVal c - 48)) 0

/-- Value of one hexadecimal digit. -/
def hexVal (c : Char) : Option Nat :=
  if '0' ≤ c ∧ c ≤ '9' then some (charVal c - 48)
  else if 'a' ≤ c ∧ c ≤ 'f' then some (charVal c - 97 + 10)
  else if 'A' ≤ c ∧ c ≤ 'F' then some (charVal c - 65 + 10)
  else none

/-- Value of a four-digit hexadecimal escape payload. -/
def hex4 (a b c d : Char) : Option Nat :=
  match hexVal a, hexVal b, hexVal c, hexVal d with
  | some va, some vb, some vc, some vd => some (((va * 16 + vb) * 16 + vc) * 16 + vd)
  | _, _, _, _ => none

/-- Single-character escapes of the JSON grammar. -/
def unescapeChar : Char → Option Char
  | '"' => some '"'
  | '\\' => some '\\'
  | '/' => some '/'
  | 'b' => some (Char.ofNat 8)
  | 'f' => some (Char.ofNat 12)
  | 'n' => some '\n'
  | 'r' => some '\r'
  | 't' => some '\t'
  | _ => none

/-- Prepend a character to the string component of a string-parse result. -/
def consFst (c : Char) : GoString × GoString → GoString × GoString
  | (s, r) => (c :: s, r)

/-- Parse JSON string content after the opening quote, handling escapes and
surrogate pairs as Go's decoder does (a lone surrogate becomes U+FFFD); raw
control characters are rejected. Fuel-structural; any fuel beyond the input
length is enough. -/
def parseStr : Nat → GoString → Except JsonErr (GoString × GoString)
  | 0, _ => .error .badSyntax
  | _, [] => .error .badSyntax
  | _ + 1, '"' :: rest => .ok ([], rest)
  | fuel + 1, '\\' :: 'u' :: a :: b :: c :: d :: rest =>
      match hex4 a b c d with
      | none => .error .badSyntax
      | some n =>
          if 0xD800 ≤ n ∧ n < 0xDC00 then
            match rest with
            | '\\' :: 'u' :: e :: f :: g :: h :: rest2 =>
                match hex4 e f g h with
                | some m =>
                    if 0xDC00 ≤ m ∧ m < 0xE000 then
                      (consFst (Char.ofNat (0x10000 + (n - 0xD800) * 0x400 + (m - 0xDC00)))) <$>
                        parseStr fuel rest2
                    else (consFst (Char.ofNat 0xFFFD)) <$> parseStr fuel rest
                | none => .error .badSyntax
            | _ => (consFst (Char.ofNat 0xFFFD)) <$> parseStr fuel rest
          else if 0xDC00 ≤ n ∧ n < 0xE000 then (consFst (Char.ofNat 0xFFFD)) <$> parseStr fuel rest
          else (consFst (Char.ofNat n)) <$> parseStr fuel rest
  | fuel + 1, '\\' :: e :: rest =>
      match unescapeChar e with
      | some c => (consFst c) <$> parseStr fuel rest
      | none => .error .badSyntax
  | fuel + 1, c :: rest =>
      if charVal c < 0x20 then .error .badSyntax
      else (consFst c) <$> parseStr fuel rest

/-- Parse an unsigned JSON integer (Go's grammar: `0` or a nonzero-led digit
run; a following `.`/`e`/`E` would make a non-integral number, outside this
model, and is rejected). -/
def parseNatNum (cs : GoString) : Except JsonErr (Nat × GoString) :=
  match takeDigits cs with
  | ([], _) => .error .badSyntax
  | (d :: ds, r) =>
      if d = '0' ∧ ds ≠ [] then .error .badSyntax
      else
        match r with
        | [] => .ok (digitsToNat (d :: ds), [])
        | c :: _ =>
            if c = '.' ∨ c = 'e' ∨ c = 'E' then .error .badSyntax
            else .ok (digitsToNat (d :: ds), r)

/-- Parse a JSON integer with optional leading minus. -/
def parseIntNum : GoString → Except JsonErr (Int × GoString)
  | '-' :: rest =>
      match parseNatNum rest with
      | .ok (n, r) => .ok (-(n : Int), r)
      | .error e => .error e
  | cs =>
      match parseNatNum cs with
      | .ok (n, r) => .ok ((n : Int), r)
      | .error e => .error e

/-- Insert a key into a decoded object, the Go map assignment `m[k] = v`:
replace an existing binding in place, else append. -/
def insertField : Fields → GoString → JsonValue → Fields
  | [], k, v => [(k, v)]
  | (k', v') :: rest, k, v =>
      if k' = k then (k', v) :: rest else (k', v') :: insertField rest k v

/-- Fold raw members into a map, later duplicates overwriting earlier ones. -/
def buildMap (ms : Fields) : Fields :=
  ms.foldl (fun acc kv => insertField acc kv.1 kv.2) []

mutual
/-- Parse one JSON value (fuel-structural; any fuel beyond the input length
is enough). -/
def parseVal (fuel : Nat) (cs : GoString) : Except JsonErr (JsonValue × GoString) :=
  match fuel with
  | 0 => .error .badSyntax
  | fuel + 1 =>
      match skipJsonWs cs with
      | 'n' :: 'u' :: 'l' :: 'l' :: afterNull => .ok (.null, afterNull)
      | 't' :: 'r' :: 'u' :: 'e' :: afterTrue => .ok (.bool true, afterTrue)
      | 'f' :: 'a' :: 'l' :: 's' :: 'e' :: afterFalse => .ok (.bool false, afterFalse)
      | '"' :: afterQuote =>
          match parseStr (afterQuote.length + 1) afterQuote with
          | .ok (s, r') => .ok (.str s, r')
          | .error e => .error e
      | '[' :: r =>
          match skipJsonWs r with
          | [] => .error .badSyntax
          | c :: r' =>
              if c = ']' then .ok (.arr [], r')
              else
                match parseElems fuel (c :: r') with
                | .ok (es, r2) => .ok (.arr es, r2)
                | .error e => .error e
      | c :: r =>
          if c = lbrace then
            match skipJsonWs r with
            | [] => .error .badSyntax
            | c' :: r' =>
                if c' = rbrace then .ok (.obj [], r')
                else
                  match parseMembers fuel (c' :: r') with
                  | .ok (ms, r2) => .ok (.obj (buildMap ms), r2)
                  | .error e => .error e
          else if c = '-' ∨ isDigit10 c then
            match parseIntNum (c :: r) with
            | .ok (n, r') => .ok (.num n, r')
            | .error e => .error e
          else .error .badSyntax
      | [] => .error .badSyntax

/-- Parse one or more comma-separated array elements up to `]`. -/
def parseElems (fuel : Nat) (cs : GoString) : Except JsonErr (List JsonValue × GoString) :=
  match fuel with
  | 0 => .error .badSyntax
  | fuel + 1 =>
      match parseVal fuel cs with
      | .error e => .error e
      | .ok (v, r) =>
          match skipJsonWs r with
          | ',' :: r' =>
              match parseElems fuel r' with
              | .ok (vs, r2) => .ok (v :: vs, r2)
              | .error e => .error e
          | ']' :: r' => .ok ([v], r')
          | _ => .error .badSyntax

/-- Parse one or more comma-separated object members up to the closing
brace, in encounter order (deduplication happens in `buildMap`). -/
def parseMembers (fuel : Nat) (cs : GoString) : Except JsonErr (Fields × GoString) :=
  match fuel with
  | 0 => .error .badSyntax
  | fuel + 1 =>
      match skipJsonWs cs with
      | '"' :: r =>
          match parseStr (r.length + 1) r with
          | .error e => .error e
          | .ok (key, r1) =>
              match skipJsonWs r1 with
              | ':' :: r2 =>
                  match parseVal fuel r2 with
                  | .error e => .error e
                  | .ok (v, r3) =>
                      match skipJsonWs r3 with
                      | ',' :: r4 =>
                          match parseMembers fuel r4 with
                          | .ok (ms, r5) => .ok ((key, v) :: ms, r5)
                          | .error e => .error e
                      | c :: r4 =>
                          if c = rbrace then .ok ([(key, v)], r4)
                          else .error .badSyntax
                      | [] => .error .badSyntax
              | _ => .error .badSyntax
      | _ => .error .badSyntax
end

/-- Model of `json.Unmarshal(bytes, &m)` for `m : map[string]interface{}`:
decode UTF-8, parse one value, require only whitespace after it, and require
the value to be an object. -/
def jsonUnmarshalObj (chars : GoString) : Except JsonErr Fields :=
  match parseVal (chars.length + 1) chars with
  | .error e => .error e
  | .ok (v, rest) =>
      if skipJsonWs rest = [] then
        match v with
        | .obj fs => .ok fs
        | _ => .error .notObject
      else .error .badSyntax

/-! ## UTF-8 (bridging Go's byte strings and unicode scalar values) -/

/-- UTF-8 bytes of one scalar value. -/
def utf8EncodeChar (c : Char) : List Nat :=
  let n := charVal c
  if n < 0x80 then [n]
  else if n < 0x800 then [0xC0 + n / 64, 0x80 + n % 64]
  else if n < 0x10000 then [0xE0 + n / 4096, 0x80 + n / 64 % 64, 0x80 + n % 64]
  else [0xF0 + n / 262144, 0x80 + n / 4096 % 64, 0x80 + n / 64 % 64, 0x80 + n % 64]

/-- UTF-8 bytes of a string. -/
def utf8Encode (s : GoString) : List Nat := s.flatMap utf8EncodeChar

/-- Decode one UTF-8 sequence: leading byte, continuation bytes, with
malformed, overlong, surrogate, and out-of-range sequences rejected; returns
the scalar value and the remaining bytes. -/
def utf8SplitChar (b : Nat) (rest : List Nat) : Option (Nat × List Nat) :=
  if b < 0x80 then some (b, rest)
  else if b < 0xC2 then none
  else if b < 0xE0 then
    match rest with
    | b1 :: rest2 =>
        if 0x80 ≤ b1 ∧ b1 < 0xC0 then some ((b - 0xC0) * 64 + (b1 - 0x80), rest2)
        else none
    | _ => none
  else if b < 0xF0 then
    match rest with
    | b1 :: b2 :: rest2 =>
        if (0x80 ≤ b1 ∧ b1 < 0xC0) ∧ (0x80 ≤ b2 ∧ b2 < 0xC0) then
          let n := (b - 0xE0) * 4096 + (b1 - 0x80) * 64 + (b2 - 0x80)
          if 0x800 ≤ n ∧ ¬(0xD800 ≤ n ∧ n < 0xE000) then some (n, rest2) else none
        else none
    | _ => none
  else if b < 0xF5 then
    match rest with
    | b1 :: b2 :: b3 :: rest2 =>
        if (0x80 ≤ b1 ∧ b1 < 0xC0) ∧ (0x80 ≤ b2 ∧ b2 < 0xC0) ∧ (0x80 ≤ b3 ∧ b3 < 0xC0) then
          let n := (b - 0xF0) * 262144 + (b1 - 0x80) * 4096 + (b2 - 0x80) * 64 + (b3 - 0x80)
          if 0x10000 ≤ n ∧ n < 0x110000 then some (n, rest2) else none
        else none
    | _ => none
  else none

/-- Decode UTF-8 bytes to scalar values, one sequence at a time
(fuel-structural; one unit of fuel per decoded character suffices). -/
def utf8DecodeLoop : Nat → List Nat → Option GoString
  | _, [] => some []
  | 0, _ :: _ => none
  | fuel + 1, b :: rest =>
      match utf8SplitChar b rest with
      | none => none
      | some (n, rest2) => (Char.ofNat n :: ·) <$> utf8DecodeLoop fuel rest2

/-- Decode UTF-8 bytes to scalar values. (Go replaces invalid sequences
inside JSON strings with U+FFFD; this model rejects them instead — a
boundary no valid-UTF-8 input, in particular no encoder output, observes.) -/
def utf8Decode (bytes : List Nat) : Option GoString :=
  utf8DecodeLoop bytes.length bytes

/-! ## base64url (model of `base64.RawURLEncoding`) -/

/-- Character of the URL-safe base64 alphabet for a sextet `n < 64`. -/
def b64Char (n : Nat) : Char :=
  if n < 26 then Char.ofNat (65 + n)
  else if n < 52 then Char.ofNat (97 + (n - 26))
  else if n < 62 then Char.ofNat (48 + (n - 52))
  else if n = 62 then '-'
  else '_'

/-- Sextet of a URL-safe base64 character. -/
def b64Val (c : Char) : Option Nat :=
  if 'A' ≤ c ∧ c ≤ 'Z' then some (charVal c - 65)
  else if 'a' ≤ c ∧ c ≤ 'z' then some (charVal c - 97 + 26)
  else if '0' ≤ c ∧ c ≤ '9' then some (charVal c - 48 + 52)
  else if c = '-' then some 62
  else if c = '_' then some 63
  else none

/-- Unpadded URL-safe base64 encoding of a byte sequence. -/
def base64urlEncode : List Nat → GoString
  | b0 :: b1 :: b2 :: rest =>
      b64Char (b0 / 4) :: b64Char (b0 % 4 * 16 + b1 / 16) ::
      b64Char (b1 % 16 * 4 + b2 / 64) :: b64Char (b2 % 64) :: base64urlEncode rest
  | [b0, b1] => [b64Char (b0 / 4), b64Char (b0 % 4 * 16 + b1 / 16), b64Char (b1 % 16 * 4)]
  | [b0] => [b64Char (b0 / 4), b64Char (b0 % 4 * 16)]
  | [] => []

/-- Unpadded URL-safe base64 decoding (`RawURLEncoding.DecodeString`):
4-character quanta, a final quantum of 2 or 3 characters, a final quantum of
1 character or any invalid character is an error. -/
def base64urlDecode : GoString → Option (List Nat)
  | c0 :: c1 :: c2 :: c3 :: rest =>
      match b64Val c0, b64Val c1, b64Val c2, b64Val c3 with
      | some s0, some s1, some s2, some s3 =>
          (fun bs => (s0 * 4 + s1 / 16) :: (s1 % 16 * 16 + s2 / 4) :: (s2 % 4 * 64 + s3) :: bs) <$>
            base64urlDecode rest
      | _, _, _, _ => none
  | [c0, c1, c2] =>
      match b64Val c0, b64Val c1, b64Val c2 with
      | some s0, some s1, some s2 => some [s0 * 4 + s1 / 16, s1 % 16 * 16 + s2 / 4]
      | _, _, _ => none
  | [c0, c1] =>
      match b64Val c0, b64Val c1 with
      | some s0, some s1 => some [s0 * 4 + s1 / 16]
      | _, _ => none
  | [_] => none
  | [] => some []

/-! ## jwt.go -/

/-- Errors of `ParseJWT`, mirroring its four `fmt.Errorf` messages. -/
inductive JwtError where
  | segmentCount (n : Nat)
  | invalidEncoding
  | invalidJson
  | missingAlg
deriving DecidableEq, Repr

/-- A parsed JWT (`jwt.go`): decoded header and payload objects plus the
verbatim signature segment. -/
structure JWT where
  Header : Fields
  Payload : Fields
  Signature : GoString

/-- Decode one base64url segment into a JSON object, with the two error
stations of `ParseJWT` (encoding, then JSON). -/
def decodeSegment (seg : GoString) : Except JwtError Fields :=
  match base64urlDecode seg with
  | none => .error .invalidEncoding
  | some bytes =>
      match utf8Decode bytes with
      | none => .error .invalidJson
      | some chars =>
          match jsonUnmarshalObj chars with
          | .error _ => .error .invalidJson
          | .ok fs => .ok fs

/-- Model of `ParseJWT` (`jwt.go`): exactly three dot-separated segments,
base64url-decode and JSON-parse segments 0 and 1, keep segment 2 verbatim;
in strict mode the header must carry an `"alg"` key.

The Go code decodes both segments before JSON-parsing either; the error
precedence here matches (encoding errors of segment 1 precede JSON errors of
segment 0 only when segment 0's decode succeeded — as in the source, where
each station returns before the next runs). -/
def ParseJWT (token : GoString) (strictMode : Bool) : Except JwtError JWT :=
  match splitOnDot token with
  | [s0, s1, s2] =>
      match base64urlDecode s0 with
      | none => .error .invalidEncoding
      | some headerBytes =>
          match base64urlDecode s1 with
          | none => .error .invalidEncoding
          | some payloadBytes =>
              match utf8Decode headerBytes with
              | none => .error .invalidJson
              | some headerChars =>
                  match jsonUnmarshalObj headerChars with
                  | .error _ => .error .invalidJson
                  | .ok header =>
                      match utf8Decode payloadBytes with
                      | none => .error .invalidJson
                      | some payloadChars =>
                          match jsonUnmarshalObj payloadChars with
                          | .error _ => .error .invalidJson
                          | .ok payload =>
                              if strictMode && (lookupField header ("alg".toList)).isNone then
                                .error .missingAlg
                              else .ok ⟨header, payload, s2⟩
  | segs => .error (.segmentCount segs.length)

/-- Model of `ExtractToken` (`jwt.go`): strip a configured leading marker
(exact match), trimming whitespace from the remainder; otherwise return the
value unchanged. -/
def ExtractToken (value markerText : GoString) : GoString :=
  if markerText = [] then value
  else if markerText.isPrefixOf value then trimSpace (value.drop markerText.length)
  else value

/-! ## config.go and the orchestrator (`jwt_claims_headers.go`)

The `Config` and `ClaimMapping` structures carry exactly the fields the
request path reads (logging-only fields are omitted; the Go `TokenPrefix`
field is named `TokenHead` here for lexical reasons only). The snapshot's
`ServeHTTP` predates the `strictMode` parameter of `ParseJWT`; the model
passes the configuration's flag, which is `false` by default. -/

/-- One configured claim-to-header mapping. -/
structure ClaimMapping where
  ClaimPath : GoString
  HeaderName : GoString
  Override : Bool
  ArrayFormat : GoString

/-- The plugin configuration fields the request path reads. -/
structure Config where
  SourceHeader : GoString
  TokenHead : GoString
  Claims : List ClaimMapping
  Sections : List GoString
  ContinueOnError : Bool
  RemoveSourceHeader : Bool
  MaxClaimDepth : Int
  MaxHeaderSize : Int
  StrictMode : Bool

/-- The rejection response `returnError` writes: 401 with a JSON body whose
fields are `error` and `message`. -/
structure ErrorResponse where
  status : Nat
  contentType : GoString
  errorField : GoString
  message : GoString

/-- What `ServeHTTP` does with the request: forward it to the next handler,
or reject it without forwarding. -/
inductive Outcome where
  | forwarded
  | rejected (resp : ErrorResponse)

/-- Model of `returnError`: a 401 JSON response carrying the error type and a
human-readable message. -/
def returnError (errorType message : GoString) : Outcome :=
  .rejected ⟨401, "application/json".toList, errorType, message⟩

/-- The section table of the mapping loop: `"payload"` and `"header"` select
the JWT sections, anything else leaves the nil map (config validation rules
other values out, and a nil map resolves nothing). -/
def sectionData (jwt : JWT) (sect : GoString) : Fields :=
  if sect = "payload".toList then jwt.Payload
  else if sect = "header".toList then jwt.Header
  else []

/-- The inner section loop of `ServeHTTP`: first section whose extraction
succeeds wins. -/
def searchSections (jwt : JWT) (path : GoString) (maxDepth : Int) :
    List GoString → Option JsonValue
  | [] => none
  | s :: rest =>
      match ExtractClaim (sectionData jwt s) path maxDepth with
      | .ok v => some v
      | .error _ => searchSections jwt path maxDepth rest

/-- One iteration of the mapping loop: resolve, convert, inject; any
per-mapping failure leaves the headers untouched and moves on. -/
def processMapping (cfg : Config) (jwt : JWT) (hdrs : Headers)
    (cm : ClaimMapping) : Headers :=
  match searchSections jwt cm.ClaimPath cfg.MaxClaimDepth cfg.Sections with
  | none => hdrs
  | some v =>
      match ConvertClaimToString v cm.ArrayFormat with
      | .error _ => hdrs
      | .ok s => (InjectHeader hdrs cm.HeaderName s cm.Override cfg.MaxHeaderSize).1

/-- Model of `ServeHTTP` (`jwt_claims_headers.go`): the final request header
state paired with what happened to the request. -/
def ServeHTTP (cfg : Config) (hdrs : Headers) : Headers × Outcome :=
  let headerValue := headerGet hdrs cfg.SourceHeader
  if headerValue = [] then
    if cfg.ContinueOnError then (hdrs, .forwarded)
    else (hdrs, returnError ("unauthorized".toList) ("missing JWT token".toList))
  else
    let token := ExtractToken headerValue cfg.TokenHead
    match ParseJWT token cfg.StrictMode with
    | .error _ =>
        if cfg.ContinueOnError then (hdrs, .forwarded)
        else (hdrs, returnError ("unauthorized".toList) ("invalid JWT token".toList))
    | .ok jwt =>
        let afterMappings := cfg.Claims.foldl (processMapping cfg jwt) hdrs
        let afterRemoval :=
          if cfg.RemoveSourceHeader then headerDel afterMappings cfg.SourceHeader
          else afterMappings
        (afterRemoval, .forwarded)

/-- Decidable shape check for the fail-closed rejection of claim C3: status
401, error field the fixed string `"unauthorized"`, a non-empty
human-readable message, and no forwarding. -/
def isUnauthorizedRejection : Outcome → Bool
  | .forwarded => false
  | .rejected r =>
      r.status == 401 && r.errorField == "unauthorized".toList && !r.message.isEmpty

/-- Concrete header state used by witness theorems: a host header plus one
ordinary header. -/
def demoHeaders : Headers :=
  fun k =>
    if k = "host".toList then "example.com".toList
    else if k = "x-user-id".toList then "original".toList
    else []

/-- Key list of an object, for the map representation invariant. -/
def nodupKeyList : List GoString → Bool
  | [] => true
  | k :: ks => !(ks.contains k) && nodupKeyList ks

mutual
/-- The Go-map representation invariant, recursively: every object's keys
are pairwise distinct (a Go map cannot hold duplicates). -/
def nodupJson : JsonValue → Bool
  | .null => true
  | .str _ => true
  | .bool _ => true
  | .num _ => true
  | .arr xs => nodupElems xs
  | .obj fs => nodupKeyList (fs.map Prod.fst) && nodupFields fs

/-- The invariant over array elements. -/
def nodupElems : List JsonValue → Bool
  | [] => true
  | x :: rest => nodupJson x && nodupElems rest

/-- The invariant over object member values. -/
def nodupFields : Fields → Bool
  | [] => true
  | (_, v) :: rest => nodupJson v && nodupFields rest
end

/-- A remainder that cannot extend a rendered integer: empty, or headed by
something that is no digit and none of `.`, `e`, `E`. -/
def numDelim : GoString → Bool
  | [] => true
  | c :: _ => !(isDigit10 c || c == '.' || c == 'e' || c == 'E')

/-- The well-formed three-segment token of the round-trip claim:
base64url of the marshalled header object, a dot, base64url of the
marshalled payload object, a dot, and the signature text. -/
def jwtEncode (hf pf : Fields) (sig : GoString) : GoString :=
  base64urlEncode (utf8Encode (jsonMarshal (.obj hf))) ++ '.' ::
    (base64urlEncode (utf8Encode (jsonMarshal (.obj pf))) ++ '.' :: sig)

/-- Header state with no entries at all. -/
def emptyHeaders : Headers := fun _ => []

/-- Concrete fail-closed configuration used by witness theorems. -/
def demoConfig : Config :=
  ⟨"Authorization".toList, "Bearer ".toList,
   [⟨"sub".toList, "X-User-Id".toList, false, "comma".toList⟩],
   ["payload".toList], false, false, 10, 8192, false⟩

/-! # Theorems -/

/-- The sanitize predicate survives in every element of a trimmed list. -/
theorem mem_trimSpace {c : Char} {s : GoString} (h : c ∈ trimSpace s) : c ∈ s := by
  have h1 : c ∈ s.dropWhile goIsSpace :=
    ((List.rdropWhile_prefix goIsSpace (s.dropWhile goIsSpace)).sublist).mem h
  exact ((List.dropWhile_suffix goIsSpace).sublist).mem h1

/-- Elements of the sanitized string come from the control-stripped string. -/
theorem mem_sanitizeCore {c : Char} {s : GoString} (h : c ∈ sanitizeCore s) :
    c ∈ removeControls s := mem_trimSpace h

/-- Every character surviving `removeControls` is non-control. -/
theorem removeControls_pred {c : Char} {s : GoString} (h : c ∈ removeControls s) :
    0x20 ≤ charVal c ∧ charVal c ≠ 0x7F := by
  have := List.of_mem_filter h
  simp only [Bool.not_eq_true', Bool.or_eq_false_iff, decide_eq_false_iff_not,
    Nat.not_lt, beq_eq_false_iff_ne] at this
  exact ⟨this.1, this.2⟩

/-- The sanitized string never holds control characters. -/
theorem noControl_sanitizeCore (s : GoString) : noControl (sanitizeCore s) = true := by
  rw [noControl, List.all_eq_true]
  intro c hc
  have ⟨h1, h2⟩ := removeControls_pred (mem_sanitizeCore hc)
  simp [h1, h2]

/-- Sanitizing only removes characters, so the byte length cannot grow. -/
theorem utf8Len_sanitizeCore_le (s : GoString) : utf8Len (sanitizeCore s) ≤ utf8Len s := by
  have h1 : List.Sublist (sanitizeCore s) (removeControls s) := by
    unfold sanitizeCore trimSpace
    exact ((List.rdropWhile_prefix goIsSpace _).sublist).trans
      (List.dropWhile_suffix goIsSpace).sublist
  have h2 : List.Sublist (removeControls s) s := by
    unfold removeControls
    exact List.filter_sublist s
  exact ((h1.trans h2).map charUtf8Len).sum_le_sum (by simp)

/-- Dropping from the front of a right-trimmed list that already dropped
nothing still drops nothing. -/
theorem dropWhile_rdropWhile_self (q : Char → Bool) (y : List Char)
    (h : y.dropWhile q = y) : (y.rdropWhile q).dropWhile q = y.rdropWhile q := by
  rcases hpr : y.rdropWhile q with _ | ⟨a, t⟩
  · simp
  · have hpre := List.rdropWhile_prefix q y
    rw [hpr] at hpre
    obtain ⟨u, hu⟩ := hpre
    have hqa : q a = false := by
      by_contra hqa'
      have hqa2 : q a = true := by simpa using hqa'
      rw [← hu, List.cons_append, List.dropWhile_cons, if_pos hqa2] at h
      have hlen := congrArg List.length h
      have hle : ((t ++ u).dropWhile q).length ≤ (t ++ u).length :=
        (List.dropWhile_suffix q).sublist.length_le
      simp only [List.length_cons] at hlen
      omega
    rw [List.dropWhile_cons, if_neg (by simp [hqa])]

/-- Trimming an already trimmed string changes nothing. -/
theorem trimSpace_idem (s : GoString) : trimSpace (trimSpace s) = trimSpace s := by
  have h1 : (trimSpace s).dropWhile goIsSpace = trimSpace s :=
    dropWhile_rdropWhile_self goIsSpace (s.dropWhile goIsSpace)
      (List.dropWhile_idempotent goIsSpace s)
  show ((trimSpace s).dropWhile goIsSpace).rdropWhile goIsSpace = trimSpace s
  rw [h1]
  exact List.rdropWhile_idempotent goIsSpace _

/-- The sanitize pipeline is a projection: applying it twice equals once. -/
theorem sanitizeCore_idem (s : GoString) : sanitizeCore (sanitizeCore s) = sanitizeCore s := by
  have hfilter : removeControls (sanitizeCore s) = sanitizeCore s :=
    List.filter_eq_self.mpr fun c hc => by
      have ⟨h1, h2⟩ := removeControls_pred (mem_sanitizeCore hc)
      simp [h1, Nat.not_lt.mpr h1, h2]
  show trimSpace (removeControls (sanitizeCore s)) = sanitizeCore s
  rw [hfilter]
  exact trimSpace_idem (removeControls s)

/-- Claim C1: for every header name whose lower-cased form is in the fixed
protected set, and every value, collision flag, and size limit,
`InjectHeader` returns no error and leaves the whole header collection —
including that header's existing value — unchanged. -/
theorem inject_protected_noop (hdrs : Headers) (name value : GoString)
    (override : Bool) (maxSize : Int) (h : goToLower name ∈ protectedHeaders) :
    InjectHeader hdrs name value override maxSize = (hdrs, none) := by
  have hp : IsProtectedHeader name = true := by
    simpa [IsProtectedHeader] using h
  simp [InjectHeader, hp]

/-- Witness for C1: injecting into `Host` (protected, case-insensitively) is
an error-free no-op on a concrete request. -/
theorem inject_protected_noop_witness :
    goToLower ("Host".toList) ∈ protectedHeaders ∧
      InjectHeader demoHeaders ("Host".toList) ("evil.com".toList) true 8192 =
        (demoHeaders, none) :=
  ⟨by decide, inject_protected_noop demoHeaders _ _ true 8192 (by decide)⟩

/-- Claim C2: for every string and every size limit at least its byte
length, `SanitizeHeaderValue` succeeds, and its result holds no code point
below 0x20 and none equal to 0x7F — in particular no CR or LF. -/
theorem sanitize_no_control (s : GoString) (maxSize : Int)
    (h : (utf8Len s : Int) ≤ maxSize) :
    SanitizeHeaderValue s maxSize = .ok (sanitizeCore s) ∧
      noControl (sanitizeCore s) = true := by
  refine ⟨?_, noControl_sanitizeCore s⟩
  rw [SanitizeHeaderValue, if_neg (by omega)]

/-- Witness for C2: a CRLF-injection value sanitizes cleanly under an ample
limit. -/
theorem sanitize_no_control_witness :
    ((utf8Len ("value\r\nX-Evil: injected".toList) : Int) ≤ 1000) ∧
      (SanitizeHeaderValue ("value\r\nX-Evil: injected".toList) 1000 =
          .ok (sanitizeCore ("value\r\nX-Evil: injected".toList)) ∧
        noControl (sanitizeCore ("value\r\nX-Evil: injected".toList)) = true) :=
  ⟨by decide, sanitize_no_control _ 1000 (by decide)⟩

/-- Claim C7: sanitization is idempotent — re-sanitizing an accepted result
returns it unchanged. -/
theorem sanitize_idempotent (s r : GoString) (maxSize : Int)
    (h : SanitizeHeaderValue s maxSize = .ok r) :
    SanitizeHeaderValue r maxSize = .ok r := by
  rw [SanitizeHeaderValue] at h
  split at h
  · exact absurd h (by simp)
  · rename_i hsize
    have hr : r = sanitizeCore s := by
      simpa using h.symm
    subst hr
    rw [SanitizeHeaderValue, if_neg (by have := utf8Len_sanitizeCore_le s; omega),
      sanitizeCore_idem]

/-- Witness for C7: applying the theorem at a concrete accepted input. -/
theorem sanitize_idempotent_witness :
    SanitizeHeaderValue ("  user@example.com ".toList) 8192 =
        .ok (sanitizeCore ("  user@example.com ".toList)) ∧
      SanitizeHeaderValue (sanitizeCore ("  user@example.com ".toList)) 8192 =
        .ok (sanitizeCore ("  user@example.com ".toList)) :=
  ⟨by rfl,
   sanitize_idempotent ("  user@example.com ".toList)
     (sanitizeCore ("  user@example.com ".toList)) 8192 (by rfl)⟩

/-- Claim C9: `InjectHeader` modifies at most the header it names — any
differently-named header keeps its value — and whenever it returns an error
no header at all changes. -/
theorem inject_frame (hdrs : Headers) (name value : GoString) (override : Bool)
    (maxSize : Int) (k : GoString)
    (h : goToLower k ≠ goToLower name ∨
      (InjectHeader hdrs name value override maxSize).2 ≠ none) :
    headerGet (InjectHeader hdrs name value override maxSize).1 k = headerGet hdrs k := by
  by_cases hp : IsProtectedHeader name = true
  · simp [InjectHeader, hp]
  · rcases hs : SanitizeHeaderValue value maxSize with e | sanitized
    · simp [InjectHeader, hp, hs]
    · by_cases hex : headerGet hdrs name ≠ [] ∧ override = false
      · simp [InjectHeader, hp, hs, hex]
      · have hres : InjectHeader hdrs name value override maxSize =
            (headerSet hdrs name sanitized, none) := by
          simp [InjectHeader, hp, hs, hex]
        rcases h with h | h
        · rw [hres]
          simp [headerGet, headerSet, h]
        · rw [hres] at h
          simp at h

/-- Witness for C9: a differently-named header survives a concrete
injection. -/
theorem inject_frame_witness :
    (goToLower ("Host".toList) ≠ goToLower ("X-User-Id".toList) ∨
        (InjectHeader demoHeaders ("X-User-Id".toList) ("12345".toList) true 8192).2 ≠ none) ∧
      headerGet (InjectHeader demoHeaders ("X-User-Id".toList) ("12345".toList) true 8192).1
          ("Host".toList) =
        headerGet demoHeaders ("Host".toList) :=
  ⟨Or.inl (by decide),
   inject_frame demoHeaders _ _ true 8192 ("Host".toList) (Or.inl (by decide))⟩

/-- Splitting the `n+1`-segment witness path yields `n+1` segments `"a"`. -/
theorem splitOnDot_depthPath : ∀ n : Nat,
    splitOnDot (depthPath (n + 1)) = List.replicate (n + 1) ['a']
  | 0 => by rfl
  | n + 1 => by
      show splitOnDot ('a' :: '.' :: depthPath (n + 1)) = _
      simp [splitOnDot, splitOnDot_depthPath n, List.replicate_succ]

/-- The witness document resolves the witness path at every depth. -/
theorem extractLoop_depthDoc (p : GoString) : ∀ n : Nat,
    extractLoop p (List.replicate (n + 1) ['a']) (depthDoc (n + 1)) = .ok (.str ['v'])
  | 0 => by rfl
  | n + 1 => by
      rw [List.replicate_succ]
      show extractLoop p (['a'] :: List.replicate (n + 1) ['a'])
        [(['a'], .obj (depthDoc (n + 1)))] = _
      rw [extractLoop]
      simp only [lookupField, reduceIte]
      rw [if_neg (by simp)]
      exact extractLoop_depthDoc p n

/-- Claim C4: a path of more segments than `maxDepth` makes `ExtractClaim`
fail with the depth error for every document (the check precedes and is
independent of any traversal), while for every positive `maxDepth` the
explicit witness document and path of exactly `maxDepth` segments resolve
successfully. -/
theorem extract_depth_boundary (data : Fields) (path : GoString) (maxDepth : Int)
    (h1 : 0 < maxDepth) (h2 : ((splitOnDot path).length : Int) > maxDepth) :
    ExtractClaim data path maxDepth = .error (.depthExceeded maxDepth) ∧
      ((splitOnDot (depthPath maxDepth.toNat)).length : Int) = maxDepth ∧
      ExtractClaim (depthDoc maxDepth.toNat) (depthPath maxDepth.toNat) maxDepth =
        .ok (.str ['v']) := by
  obtain ⟨n, hn⟩ : ∃ n, maxDepth.toNat = n + 1 := by
    refine ⟨maxDepth.toNat - 1, ?_⟩
    omega
  have hsplit := splitOnDot_depthPath n
  have hlen : ((splitOnDot (depthPath maxDepth.toNat)).length : Int) = maxDepth := by
    rw [hn, hsplit, List.length_replicate]
    omega
  refine ⟨?_, hlen, ?_⟩
  · rw [ExtractClaim, if_pos h2]
  · rw [ExtractClaim, if_neg (by omega), hn, hsplit]
    exact extractLoop_depthDoc (depthPath (n + 1)) n

/-- Witness for C4: with `maxDepth = 2`, a three-segment path is rejected on
an empty document, and the two-segment witness resolves. -/
theorem extract_depth_boundary_witness :
    (0 : Int) < 2 ∧ ((splitOnDot ("a.b.c".toList)).length : Int) > 2 ∧
      (ExtractClaim [] ("a.b.c".toList) 2 = .error (.depthExceeded 2) ∧
        ((splitOnDot (depthPath (2 : Int).toNat)).length : Int) = 2 ∧
        ExtractClaim (depthDoc (2 : Int).toNat) (depthPath (2 : Int).toNat) 2 =
          .ok (.str ['v'])) :=
  ⟨by decide, by decide, extract_depth_boundary [] ("a.b.c".toList) 2 (by decide) (by decide)⟩

/-- Counterexample to claim C5 as stated: the spec says resolving the empty
path fails with NotFound for every document, but on a document whose
top-level object carries the empty string as a key, `ExtractClaim` returns
that key's value (the split of `""` is the one-segment list `[""]`, which is
looked up like any other key). -/
theorem extract_empty_path_counterexample :
    ExtractClaim [(([] : GoString), JsonValue.str ['x'])] [] 10 =
      .ok (.str ['x']) := rfl

/-- Claim C5, amended: for every document whose top level does not carry the
empty string as a key — in particular every document with ordinary non-empty
claim names — and every `maxDepth ≥ 1`, resolving the empty path fails with
NotFound. -/
theorem extract_empty_path (data : Fields) (maxDepth : Int)
    (h1 : 1 ≤ maxDepth) (h2 : (lookupField data []).isNone = true) :
    ExtractClaim data [] maxDepth = .error (.notFound []) := by
  rw [ExtractClaim]
  have hsplit : splitOnDot ([] : GoString) = [[]] := rfl
  rw [hsplit, if_neg (by simp; omega)]
  rcases hl : lookupField data [] with _ | v
  · simp [extractLoop, hl]
  · rw [hl] at h2
    simp at h2

/-- Witness for C5 (amended): a document keyed `"a"` has no empty key, and
the empty path resolves to NotFound. -/
theorem extract_empty_path_witness :
    (1 : Int) ≤ 10 ∧ (lookupField [(['a'], JsonValue.str ['x'])] []).isNone = true ∧
      ExtractClaim [(['a'], JsonValue.str ['x'])] [] 10 = .error (.notFound []) :=
  ⟨by decide, by rfl,
   extract_empty_path [(['a'], JsonValue.str ['x'])] 10 (by decide) (by rfl)⟩

/-- Claim C3: in fail-closed mode, a missing/empty source header or a token
that fails to decode makes the orchestrator reject instead of forwarding:
the request's headers are exactly the originals (nothing injected), and the
response is a 401 whose JSON body carries the fixed `error` field
`"unauthorized"` and a non-empty human-readable `message`. -/
theorem serve_fail_closed (cfg : Config) (hdrs : Headers)
    (hc : cfg.ContinueOnError = false)
    (h : headerGet hdrs cfg.SourceHeader = [] ∨
      ∃ e, ParseJWT (ExtractToken (headerGet hdrs cfg.SourceHeader) cfg.TokenHead)
        cfg.StrictMode = .error e) :
    (ServeHTTP cfg hdrs).1 = hdrs ∧
      isUnauthorizedRejection (ServeHTTP cfg hdrs).2 = true := by
  by_cases hv : headerGet hdrs cfg.SourceHeader = []
  · constructor <;> simp [ServeHTTP, hv, hc, returnError, isUnauthorizedRejection]
  · rcases h with h | ⟨e, he⟩
    · exact absurd h hv
    · constructor <;>
        simp [ServeHTTP, hv, hc, he, returnError, isUnauthorizedRejection]

/-- Witness for C3: the fail-closed demo configuration rejects a request
with no source header at all. -/
theorem serve_fail_closed_witness :
    demoConfig.ContinueOnError = false ∧
      headerGet emptyHeaders demoConfig.SourceHeader = [] ∧
      ((ServeHTTP demoConfig emptyHeaders).1 = emptyHeaders ∧
        isUnauthorizedRejection (ServeHTTP demoConfig emptyHeaders).2 = true) :=
  ⟨rfl, rfl, serve_fail_closed demoConfig emptyHeaders rfl (Or.inl rfl)⟩

/-- Claim C10: `ParseJWT` takes a strict-mode flag the spec does not
mention: a token whose segments decode and JSON-parse but whose header
object lacks the key `"alg"` is rejected in strict mode, while the same
token parses successfully in non-strict mode. -/
theorem parse_strict_alg (token s0 s1 s2 : GoString) (hb pb : List Nat)
    (hc pc : GoString) (hf pf : Fields)
    (hsplit : splitOnDot token = [s0, s1, s2])
    (hdec0 : base64urlDecode s0 = some hb)
    (hdec1 : base64urlDecode s1 = some pb)
    (hu0 : utf8Decode hb = some hc)
    (hu1 : utf8Decode pb = some pc)
    (hj0 : jsonUnmarshalObj hc = .ok hf)
    (hj1 : jsonUnmarshalObj pc = .ok pf)
    (halg : (lookupField hf ("alg".toList)).isNone = true) :
    ParseJWT token true = .error .missingAlg ∧
      ParseJWT token false = .ok ⟨hf, pf, s2⟩ := by
  rw [Option.isNone_iff_eq_none] at halg
  have halg2 : lookupField hf ['a', 'l', 'g'] = none := by simpa using halg
  constructor <;>
    simp [ParseJWT, hsplit, hdec0, hdec1, hu0, hu1, hj0, hj1, halg2]

/-- Witness for C10: a concrete token whose header is `\x7b"typ":"JWT"\x7d`
(no `alg`), exercising both modes through the theorem. -/
theorem parse_strict_alg_witness :
    (splitOnDot ("eyJ0eXAiOiJKV1QifQ.eyJpc3MiOiJtZSJ9.sig".toList) =
        ["eyJ0eXAiOiJKV1QifQ".toList, "eyJpc3MiOiJtZSJ9".toList, "sig".toList]) ∧
      (ParseJWT ("eyJ0eXAiOiJKV1QifQ.eyJpc3MiOiJtZSJ9.sig".toList) true =
          .error .missingAlg ∧
        ParseJWT ("eyJ0eXAiOiJKV1QifQ.eyJpc3MiOiJtZSJ9.sig".toList) false =
          .ok ⟨[("typ".toList, JsonValue.str ("JWT".toList))],
               [("iss".toList, JsonValue.str ("me".toList))], "sig".toList⟩) :=
  ⟨by rfl,
   parse_strict_alg ("eyJ0eXAiOiJKV1QifQ.eyJpc3MiOiJtZSJ9.sig".toList)
     ("eyJ0eXAiOiJKV1QifQ".toList) ("eyJpc3MiOiJtZSJ9".toList) ("sig".toList)
     ("\x7b\"typ\":\"JWT\"\x7d".toList.map (fun c => charVal c))
     ("\x7b\"iss\":\"me\"\x7d".toList.map (fun c => charVal c))
     ("\x7b\"typ\":\"JWT\"\x7d".toList) ("\x7b\"iss\":\"me\"\x7d".toList)
     [("typ".toList, JsonValue.str ("JWT".toList))]
     [("iss".toList, JsonValue.str ("me".toList))]
     (by rfl) (by rfl) (by rfl) (by rfl) (by rfl) (by rfl) (by rfl) (by rfl)⟩

/-- Splitting a dot-free string yields that single segment. -/
theorem splitOnDot_no_dot (xs : GoString) (h : '.' ∉ xs) : splitOnDot xs = [xs] := by
  induction xs with
  | nil => rfl
  | cons c rest ih =>
      have hc : ¬(c = '.') := fun e => h (e ▸ List.mem_cons_self ..)
      have hr : '.' ∉ rest := fun m => h (List.mem_cons_of_mem _ m)
      simp [splitOnDot, hc, ih hr]

/-- Splitting peels one dot-free segment at the first dot. -/
theorem splitOnDot_append (xs ys : GoString) (h : '.' ∉ xs) :
    splitOnDot (xs ++ '.' :: ys) = xs :: splitOnDot ys := by
  induction xs with
  | nil => simp [splitOnDot]
  | cons c rest ih =>
      have hc : ¬(c = '.') := fun e => h (e ▸ List.mem_cons_self ..)
      have hr : '.' ∉ rest := fun m => h (List.mem_cons_of_mem _ m)
      simp [splitOnDot, hc, ih hr]

/-- The base64url alphabet decodes back to its sextet (bounded check). -/
theorem b64Val_b64Char_fin : ∀ m : Fin 64, b64Val (b64Char m.val) = some m.val := by decide

/-- The base64url alphabet decodes back to its sextet. -/
theorem b64Val_b64Char (n : Nat) (h : n < 64) : b64Val (b64Char n) = some n :=
  b64Val_b64Char_fin ⟨n, h⟩

/-- No base64url alphabet character is a dot (bounded check). -/
theorem b64Char_ne_dot_fin : ∀ m : Fin 64, b64Char m.val ≠ '.' := by decide

/-- No base64url alphabet character is a dot. -/
theorem b64Char_ne_dot (n : Nat) (h : n < 64) : b64Char n ≠ '.' :=
  b64Char_ne_dot_fin ⟨n, h⟩

/-- Decoding inverts encoding on byte sequences (3-byte blocks, then the
short final block). -/
theorem base64url_roundtrip : ∀ bs : List Nat, (∀ b ∈ bs, b < 256) →
    base64urlDecode (base64urlEncode bs) = some bs
  | [], _ => rfl
  | [b0], h => by
      have hb0 : b0 < 256 := h b0 (by simp)
      show base64urlDecode [b64Char (b0 / 4), b64Char (b0 % 4 * 16)] = some [b0]
      rw [base64urlDecode, b64Val_b64Char (b0 / 4) (by omega),
        b64Val_b64Char (b0 % 4 * 16) (by omega)]
      simp only [Option.some.injEq, List.cons.injEq, and_true]
      omega
  | [b0, b1], h => by
      have hb0 : b0 < 256 := h b0 (by simp)
      have hb1 : b1 < 256 := h b1 (by simp)
      show base64urlDecode
          [b64Char (b0 / 4), b64Char (b0 % 4 * 16 + b1 / 16), b64Char (b1 % 16 * 4)] =
        some [b0, b1]
      rw [base64urlDecode, b64Val_b64Char (b0 / 4) (by omega),
        b64Val_b64Char (b0 % 4 * 16 + b1 / 16) (by omega),
        b64Val_b64Char (b1 % 16 * 4) (by omega)]
      simp only [Option.some.injEq, List.cons.injEq, and_true]
      constructor <;> omega
  | b0 :: b1 :: b2 :: rest, h => by
      have hb0 : b0 < 256 := h b0 (by simp)
      have hb1 : b1 < 256 := h b1 (by simp)
      have hb2 : b2 < 256 := h b2 (by simp)
      have hrest : ∀ b ∈ rest, b < 256 := fun b hb => h b (by simp [hb])
      show base64urlDecode
          (b64Char (b0 / 4) :: b64Char (b0 % 4 * 16 + b1 / 16) ::
            b64Char (b1 % 16 * 4 + b2 / 64) :: b64Char (b2 % 64) ::
            base64urlEncode rest) =
        some (b0 :: b1 :: b2 :: rest)
      rw [base64urlDecode, b64Val_b64Char (b0 / 4) (by omega),
        b64Val_b64Char (b0 % 4 * 16 + b1 / 16) (by omega),
        b64Val_b64Char (b1 % 16 * 4 + b2 / 64) (by omega),
        b64Val_b64Char (b2 % 64) (by omega),
        base64url_roundtrip rest hrest]
      have h1 : b0 / 4 * 4 + (b0 % 4 * 16 + b1 / 16) / 16 = b0 := by omega
      have h2 : (b0 % 4 * 16 + b1 / 16) % 16 * 16 + (b1 % 16 * 4 + b2 / 64) / 4 = b1 := by
        omega
      have h3 : (b1 % 16 * 4 + b2 / 64) % 4 * 64 + b2 % 64 = b2 := by omega
      simp [h1, h2, h3]

/-- The encoded form of a byte sequence holds no dot. -/
theorem base64urlEncode_no_dot : ∀ bs : List Nat, (∀ b ∈ bs, b < 256) →
    '.' ∉ base64urlEncode bs
  | [], _ => by simp [base64urlEncode]
  | [b0], h => by
      have hb0 : b0 < 256 := h b0 (by simp)
      show '.' ∉ [b64Char (b0 / 4), b64Char (b0 % 4 * 16)]
      simp [List.mem_cons]
      exact ⟨(b64Char_ne_dot (b0 / 4) (by omega)).symm,
        (b64Char_ne_dot (b0 % 4 * 16) (by omega)).symm⟩
  | [b0, b1], h => by
      have hb0 : b0 < 256 := h b0 (by simp)
      have hb1 : b1 < 256 := h b1 (by simp)
      show '.' ∉ [b64Char (b0 / 4), b64Char (b0 % 4 * 16 + b1 / 16), b64Char (b1 % 16 * 4)]
      simp [List.mem_cons]
      exact ⟨(b64Char_ne_dot (b0 / 4) (by omega)).symm,
        (b64Char_ne_dot (b0 % 4 * 16 + b1 / 16) (by omega)).symm,
        (b64Char_ne_dot (b1 % 16 * 4) (by omega)).symm⟩
  | b0 :: b1 :: b2 :: rest, h => by
      have hb0 : b0 < 256 := h b0 (by simp)
      have hb1 : b1 < 256 := h b1 (by simp)
      have hb2 : b2 < 256 := h b2 (by simp)
      have hrest : ∀ b ∈ rest, b < 256 := fun b hb => h b (by simp [hb])
      have ih := base64urlEncode_no_dot rest hrest
      show '.' ∉ b64Char (b0 / 4) :: b64Char (b0 % 4 * 16 + b1 / 16) ::
        b64Char (b1 % 16 * 4 + b2 / 64) :: b64Char (b2 % 64) :: base64urlEncode rest
      simp [List.mem_cons]
      refine ⟨(b64Char_ne_dot (b0 / 4) (by omega)).symm,
        (b64Char_ne_dot (b0 % 4 * 16 + b1 / 16) (by omega)).symm,
        (b64Char_ne_dot (b1 % 16 * 4 + b2 / 64) (by omega)).symm,
        (b64Char_ne_dot (b2 % 64) (by omega)).symm, ?_⟩
      simpa using ih

/-- Unicode scalar values avoid the surrogate range and the ceiling. -/
theorem charVal_valid (c : Char) :
    charVal c < 0xD800 ∨ (0xDFFF < charVal c ∧ charVal c < 0x110000) := c.valid

/-- Scalar values are below the Unicode ceiling. -/
theorem charVal_lt (c : Char) : charVal c < 0x110000 := by
  rcases charVal_valid c with h | h <;> omega

/-- Scalar values are never surrogates. -/
theorem charVal_not_surrogate (c : Char) : ¬(0xD800 ≤ charVal c ∧ charVal c < 0xE000) := by
  rcases charVal_valid c with h | h <;> omega

/-- Rebuilding a character from its scalar value gives it back. -/
theorem char_ofNat_charVal (c : Char) : Char.ofNat (charVal c) = c := Char.ofNat_toNat c

/-- Every UTF-8 byte is a byte. -/
theorem utf8EncodeChar_lt (c : Char) : ∀ b ∈ utf8EncodeChar c, b < 256 := by
  intro b hb
  have hv := charVal_lt c
  rw [utf8EncodeChar] at hb
  split at hb
  · simp only [List.mem_singleton] at hb
    omega
  · split at hb
    · simp only [List.mem_cons, List.not_mem_nil, or_false] at hb
      rcases hb with rfl | rfl <;> omega
    · split at hb
      · simp only [List.mem_cons, List.not_mem_nil, or_false] at hb
        rcases hb with rfl | rfl | rfl <;> omega
      · simp only [List.mem_cons, List.not_mem_nil, or_false] at hb
        rcases hb with rfl | rfl | rfl | rfl <;> omega

/-- Every byte of an encoded string is a byte. -/
theorem utf8Encode_lt (s : GoString) : ∀ b ∈ utf8Encode s, b < 256 := by
  intro b hb
  rw [utf8Encode, List.mem_flatMap] at hb
  obtain ⟨c, _, hc⟩ := hb
  exact utf8EncodeChar_lt c b hc

/-- Decoding one sequence inverts encoding one character, for any trailing
bytes. -/
theorem utf8SplitChar_enc (c : Char) (tail : List Nat) :
    ∃ b bs, utf8EncodeChar c = b :: bs ∧
      utf8SplitChar b (bs ++ tail) = some (charVal c, tail) := by
  have hv := charVal_lt c
  have hs := charVal_not_surrogate c
  by_cases h1 : charVal c < 0x80
  · refine ⟨charVal c, [], ?_, ?_⟩
    · rw [utf8EncodeChar, if_pos h1]
    · delta utf8SplitChar
      rw [if_pos h1]
      simp
  · by_cases h2 : charVal c < 0x800
    · refine ⟨0xC0 + charVal c / 64, [0x80 + charVal c % 64], ?_, ?_⟩
      · rw [utf8EncodeChar, if_neg h1, if_pos h2]
      · show utf8SplitChar _ ((0x80 + charVal c % 64) :: tail) = _
        delta utf8SplitChar
        rw [if_neg (by omega), if_neg (by omega), if_pos (by omega)]
        dsimp only []
        rw [if_pos (by omega)]
        simp only [Option.some.injEq, Prod.mk.injEq, and_true]
        omega
    · by_cases h3 : charVal c < 0x10000
      · refine ⟨0xE0 + charVal c / 4096,
          [0x80 + charVal c / 64 % 64, 0x80 + charVal c % 64], ?_, ?_⟩
        · rw [utf8EncodeChar, if_neg h1, if_neg h2, if_pos h3]
        · show utf8SplitChar _
            ((0x80 + charVal c / 64 % 64) :: (0x80 + charVal c % 64) :: tail) = _
          delta utf8SplitChar
          rw [if_neg (by omega), if_neg (by omega), if_neg (by omega), if_pos (by omega)]
          dsimp only []
          rw [if_pos (by omega)]
          rw [if_pos (by omega)]
          simp only [Option.some.injEq, Prod.mk.injEq, and_true]
          omega
      · refine ⟨0xF0 + charVal c / 262144,
          [0x80 + charVal c / 4096 % 64, 0x80 + charVal c / 64 % 64,
           0x80 + charVal c % 64], ?_, ?_⟩
        · rw [utf8EncodeChar, if_neg h1, if_neg h2, if_neg h3]
        · show utf8SplitChar _
            ((0x80 + charVal c / 4096 % 64) :: (0x80 + charVal c / 64 % 64) ::
              (0x80 + charVal c % 64) :: tail) = _
          delta utf8SplitChar
          rw [if_neg (by omega), if_neg (by omega), if_neg (by omega), if_neg (by omega),
            if_pos (by omega)]
          dsimp only []
          rw [if_pos (by omega)]
          rw [if_pos (by omega)]
          simp only [Option.some.injEq, Prod.mk.injEq, and_true]
          omega

/-- The byte sequence of a string is at least one byte per character. -/
theorem utf8Encode_length_ge : ∀ s : GoString, s.length ≤ (utf8Encode s).length
  | [] => Nat.le_refl 0
  | c :: rest => by
      have ih := utf8Encode_length_ge rest
      obtain ⟨b, bs, henc, _⟩ := utf8SplitChar_enc c []
      show (c :: rest).length ≤ (utf8EncodeChar c ++ utf8Encode rest).length
      rw [henc]
      simp only [List.length_cons, List.length_append]
      omega

/-- The decode loop inverts encoding given one unit of fuel per character. -/
theorem utf8DecodeLoop_encode : ∀ (s : GoString) (fuel : Nat), s.length ≤ fuel →
    utf8DecodeLoop fuel (utf8Encode s) = some s
  | [], fuel, _ => by
      show utf8DecodeLoop fuel [] = some []
      cases fuel <;> rfl
  | c :: rest, fuel, hf => by
      obtain ⟨b, bs, henc, hsplit⟩ := utf8SplitChar_enc c (utf8Encode rest)
      obtain ⟨f, rfl⟩ : ∃ f, fuel = f + 1 := by
        refine ⟨fuel - 1, ?_⟩
        simp only [List.length_cons] at hf
        omega
      have ih := utf8DecodeLoop_encode rest f
        (by simp only [List.length_cons] at hf; omega)
      show utf8DecodeLoop (f + 1) (utf8EncodeChar c ++ utf8Encode rest) = _
      rw [henc, List.cons_append, utf8DecodeLoop, hsplit]
      simp [ih, char_ofNat_charVal]

/-- Decoding inverts encoding. -/
theorem utf8_roundtrip (s : GoString) : utf8Decode (utf8Encode s) = some s :=
  utf8DecodeLoop_encode s (utf8Encode s).length (utf8Encode_length_ge s)

/-- Value of a digit character (bounded check). -/
theorem digit10_val_fin : ∀ d : Fin 10, charVal (digit10 d.val) = 48 + d.val := by decide

/-- Value of a digit character. -/
theorem digit10_val (d : Nat) (h : d < 10) : charVal (digit10 d) = 48 + d :=
  digit10_val_fin ⟨d, h⟩

/-- Digit characters satisfy the digit test (bounded check). -/
theorem digit10_isDigit_fin : ∀ d : Fin 10, isDigit10 (digit10 d.val) = true := by decide

/-- Digit characters satisfy the digit test. -/
theorem digit10_isDigit (d : Nat) (h : d < 10) : isDigit10 (digit10 d) = true :=
  digit10_isDigit_fin ⟨d, h⟩

/-- The digit accumulator only rides along on the right. -/
theorem natDigits_acc : ∀ (fuel n : Nat) (acc : GoString),
    natDigits fuel n acc = natDigits fuel n [] ++ acc
  | 0, n, acc => rfl
  | fuel + 1, n, acc => by
      by_cases h : n < 10
      · rw [natDigits, if_pos h, natDigits, if_pos h]
        rfl
      · rw [natDigits, if_neg h, natDigits, if_neg h,
          natDigits_acc fuel (n / 10) (digit10 (n % 10) :: acc),
          natDigits_acc fuel (n / 10) [digit10 (n % 10)]]
        simp

/-- Digit runs are never empty. -/
theorem natDigits_ne_nil (fuel n : Nat) (acc : GoString) : natDigits fuel n acc ≠ [] := by
  cases fuel with
  | zero => simp [natDigits]
  | succ f =>
      by_cases h : n < 10
      · simp [natDigits, h]
      · rw [natDigits, if_neg h, natDigits_acc]
        simp

/-- The digits produced do not depend on the fuel, once it is sufficient. -/
theorem natDigits_fuel (n : Nat) : ∀ fuel fuel' : Nat, n ≤ fuel → n ≤ fuel' →
    natDigits fuel n [] = natDigits fuel' n [] := by
  induction n using Nat.strong_induction_on with
  | _ n ih =>
      intro fuel fuel' hf hf'
      by_cases h : n < 10
      · cases fuel with
        | zero =>
            cases fuel' with
            | zero => rfl
            | succ f' => rw [natDigits, natDigits, if_pos h, Nat.mod_eq_of_lt h]
        | succ f =>
            cases fuel' with
            | zero => rw [natDigits, natDigits, if_pos h, Nat.mod_eq_of_lt h]
            | succ f' => rw [natDigits, natDigits, if_pos h, if_pos h]
      · obtain ⟨f, rfl⟩ : ∃ f, fuel = f + 1 := ⟨fuel - 1, by omega⟩
        obtain ⟨f', rfl⟩ : ∃ f', fuel' = f' + 1 := ⟨fuel' - 1, by omega⟩
        rw [natDigits, if_neg h, natDigits, if_neg h, natDigits_acc, natDigits_acc,
          ih (n / 10) (by omega) f f' (by omega) (by omega)]
        rw [List.append_nil]
        exact (natDigits_acc f' (n / 10) [digit10 (n % 10)]).symm

/-- Every character of a digit run is a digit. -/
theorem natDigits_all_digits (n : Nat) : ∀ fuel : Nat, n ≤ fuel →
    ∀ c ∈ natDigits fuel n [], isDigit10 c = true := by
  induction n using Nat.strong_induction_on with
  | _ n ih =>
      intro fuel hf c hc
      by_cases h : n < 10
      · cases fuel with
        | zero =>
            simp only [natDigits, List.mem_singleton] at hc
            subst hc
            exact digit10_isDigit (n % 10) (by omega)
        | succ f =>
            rw [natDigits, if_pos h] at hc
            simp only [List.mem_singleton] at hc
            subst hc
            exact digit10_isDigit n h
      · obtain ⟨f, rfl⟩ : ∃ f, fuel = f + 1 := ⟨fuel - 1, by omega⟩
        rw [natDigits, if_neg h, natDigits_acc] at hc
        rcases List.mem_append.mp hc with hc | hc
        · exact ih (n / 10) (by omega) f (by omega) c hc
        · simp only [List.mem_singleton] at hc
          subst hc
          exact digit10_isDigit (n % 10) (by omega)

/-- Appending one digit multiplies the run's value by ten. -/
theorem digitsToNat_append (xs : GoString) (d : Char) :
    digitsToNat (xs ++ [d]) = digitsToNat xs * 10 + (charVal d - 48) := by
  rw [digitsToNat, digitsToNat, List.foldl_append]
  rfl

/-- A digit run evaluates back to its number. -/
theorem natDigits_toNat (n : Nat) : ∀ fuel : Nat, n ≤ fuel →
    digitsToNat (natDigits fuel n []) = n := by
  induction n using Nat.strong_induction_on with
  | _ n ih =>
      intro fuel hf
      by_cases h : n < 10
      · have hval : digitsToNat [digit10 n] = n := by
          have hd := digit10_val n h
          rw [digitsToNat]
          simp only [List.foldl_cons, List.foldl_nil]
          rw [hd]
          omega
        cases fuel with
        | zero =>
            rw [natDigits, Nat.mod_eq_of_lt h]
            exact hval
        | succ f =>
            rw [natDigits, if_pos h]
            exact hval
      · obtain ⟨f, rfl⟩ : ∃ f, fuel = f + 1 := ⟨fuel - 1, by omega⟩
        rw [natDigits, if_neg h, natDigits_acc, digitsToNat_append,
          ih (n / 10) (by omega) f (by omega), digit10_val (n % 10) (by omega)]
        omega

/-- The leading digit of a multi-digit run is nonzero. -/
theorem natDigits_head_ne_zero (n : Nat) : ∀ fuel : Nat, n ≤ fuel → 10 ≤ n →
    ∀ d ds, natDigits fuel n [] = d :: ds → d ≠ '0' := by
  induction n using Nat.strong_induction_on with
  | _ n ih =>
      intro fuel hf hn d ds heq
      obtain ⟨f, rfl⟩ : ∃ f, fuel = f + 1 := ⟨fuel - 1, by omega⟩
      rw [natDigits, if_neg (by omega), natDigits_acc] at heq
      by_cases h10 : 10 ≤ n / 10
      · obtain ⟨d', ds', heq'⟩ : ∃ d' ds', natDigits f (n / 10) [] = d' :: ds' := by
          rcases hh : natDigits f (n / 10) [] with _ | ⟨d', ds'⟩
          · exact absurd hh (natDigits_ne_nil f (n / 10) [])
          · exact ⟨d', ds', rfl⟩
        rw [heq'] at heq
        simp only [List.cons_append, List.cons.injEq] at heq
        exact heq.1 ▸ ih (n / 10) (by omega) f (by omega) h10 d' ds' heq'
      · have hm : n / 10 < 10 := by omega
        have hm1 : 1 ≤ n / 10 := by omega
        have hrw : natDigits f (n / 10) [] = [digit10 (n / 10)] := by
          cases f with
          | zero => rw [natDigits, Nat.mod_eq_of_lt hm]
          | succ f' => rw [natDigits, if_pos hm]
        rw [hrw] at heq
        simp only [List.cons_append, List.cons.injEq] at heq
        intro hd0
        have hv2 := digit10_val (n / 10) hm
        rw [heq.1, hd0] at hv2
        have h0 : charVal '0' = 48 := rfl
        rw [h0] at hv2
        omega

/-- `takeDigits` stops at a number delimiter. -/
theorem takeDigits_stop (cs : GoString) (h : numDelim cs = true) :
    takeDigits cs = ([], cs) := by
  cases cs with
  | nil => rfl
  | cons c rest =>
      simp only [numDelim, Bool.not_eq_true', Bool.or_eq_false_iff] at h
      rw [takeDigits, if_neg (by simp [h.1.1.1])]

/-- `takeDigits` consumes exactly a leading digit run. -/
theorem takeDigits_append (digs : GoString) (tl : GoString)
    (hd : ∀ c ∈ digs, isDigit10 c = true) (htl : takeDigits tl = ([], tl)) :
    takeDigits (digs ++ tl) = (digs, tl) := by
  induction digs with
  | nil => simpa using htl
  | cons c t ih =>
      have hc : isDigit10 c = true := hd c (by simp)
      have ht := ih fun x hx => hd x (by simp [hx])
      rw [List.cons_append, takeDigits, if_pos (by simp [hc]), ht]

/-- A digit is not a minus sign, a dot, or an exponent marker. -/
theorem isDigit10_ne (c : Char) (h : isDigit10 c = true) :
    c ≠ '-' ∧ c ≠ '.' ∧ c ≠ 'e' ∧ c ≠ 'E' := by
  refine ⟨?_, ?_, ?_, ?_⟩ <;> intro hc <;> subst hc <;> exact absurd h (by decide)

/-- Parsing an unsigned rendered number recovers it, for any remainder that
cannot extend the digit run. -/
theorem parseNatNum_natDecimal (n : Nat) (rest : GoString) (hr : numDelim rest = true) :
    parseNatNum (natDecimal n ++ rest) = .ok (n, rest) := by
  have htake : takeDigits (natDecimal n ++ rest) = (natDecimal n, rest) :=
    takeDigits_append _ _ (natDigits_all_digits n n (Nat.le_refl n)) (takeDigits_stop rest hr)
  obtain ⟨d, ds, heq⟩ : ∃ d ds, natDecimal n = d :: ds := by
    rcases hh : natDecimal n with _ | ⟨d, ds⟩
    · exact absurd hh (natDigits_ne_nil n n [])
    · exact ⟨d, ds, rfl⟩
  have hlead : ¬(d = '0' ∧ ds ≠ []) := by
    rintro ⟨rfl, hds⟩
    by_cases h : n < 10
    · have : natDecimal n = [digit10 n] := by
        rcases hn0 : n with _ | m
        · rfl
        · rw [natDecimal, natDigits, if_pos (hn0 ▸ h)]
      rw [this] at heq
      simp only [List.cons.injEq] at heq
      exact hds heq.2.symm
    · exact natDigits_head_ne_zero n n (Nat.le_refl n) (by omega) _ ds heq rfl
  rw [parseNatNum, htake, heq]
  dsimp only []
  rw [if_neg hlead]
  have hval : digitsToNat (d :: ds) = n := heq ▸ natDigits_toNat n n (Nat.le_refl n)
  cases rest with
  | nil => simp [hval]
  | cons c t =>
      simp only [numDelim, Bool.not_eq_true', Bool.or_eq_false_iff] at hr
      have : ¬(c = '.' ∨ c = 'e' ∨ c = 'E') := by
        push_neg
        refine ⟨by simpa using hr.1.1.2, by simpa using hr.1.2, by simpa using hr.2⟩
      simp [this, hval]

/-- Parsing a rendered integer recovers it. -/
theorem parseIntNum_intDecimal (i : Int) (rest : GoString) (hr : numDelim rest = true) :
    parseIntNum (intDecimal i ++ rest) = .ok (i, rest) := by
  by_cases hneg : i < 0
  · have henc : intDecimal i ++ rest = '-' :: (natDecimal i.natAbs ++ rest) := by
      rw [intDecimal, if_pos hneg]
      simp
    rw [henc, parseIntNum, parseNatNum_natDecimal i.natAbs rest hr]
    dsimp only []
    have hni : -((i.natAbs : Nat) : Int) = i := by omega
    rw [hni]
  · obtain ⟨d, ds, heq⟩ : ∃ d ds, natDecimal i.natAbs = d :: ds := by
      rcases hh : natDecimal i.natAbs with _ | ⟨d, ds⟩
      · exact absurd hh (natDigits_ne_nil _ _ [])
      · exact ⟨d, ds, rfl⟩
    have hdig : isDigit10 d = true := by
      have heq2 : natDigits i.natAbs i.natAbs [] = d :: ds := heq
      exact natDigits_all_digits i.natAbs i.natAbs (Nat.le_refl _) d (by rw [heq2]; simp)
    have hdm : d ≠ '-' := (isDigit10_ne d hdig).1
    have henc : intDecimal i ++ rest = d :: (ds ++ rest) := by
      rw [intDecimal, if_neg hneg]
      simp [natDecimal] at heq
      simp [natDecimal, heq]
    rw [henc, parseIntNum.eq_def]
    split
    · rename_i heq2
      simp only [List.cons.injEq] at heq2
      exact absurd heq2.1 hdm
    · have hback : d :: (ds ++ rest) = natDecimal i.natAbs ++ rest := by
        rw [heq]
        simp
      rw [hback, parseNatNum_natDecimal i.natAbs rest hr]
      dsimp only []
      have hni : (((i.natAbs : Nat)) : Int) = i := by omega
      rw [hni]


/-- Hex digits decode back to their value (bounded check). -/
theorem hexVal_hexDigit_fin : ∀ d : Fin 16, hexVal (hexDigit d.val) = some d.val := by decide

/-- Hex digits decode back to their value. -/
theorem hexVal_hexDigit (d : Nat) (h : d < 16) : hexVal (hexDigit d) = some d :=
  hexVal_hexDigit_fin ⟨d, h⟩

/-- A four-hex-digit escape payload decodes back to its value. -/
theorem hex4_hexDigits (x : Nat) (h : x < 0x10000) :
    hex4 (hexDigit (x / 4096 % 16)) (hexDigit (x / 256 % 16))
      (hexDigit (x / 16 % 16)) (hexDigit (x % 16)) = some x := by
  rw [hex4, hexVal_hexDigit _ (by omega), hexVal_hexDigit _ (by omega),
    hexVal_hexDigit _ (by omega), hexVal_hexDigit _ (by omega)]
  dsimp only []
  simp only [Option.some.injEq]
  omega

/-- Code points the encoder escapes as `\uXXXX` are small, in particular
below the surrogate range and within four hex digits. -/
theorem needsUEscape_lt (c : Char) (h : needsUEscape c = true) : charVal c < 0x3000 := by
  rw [needsUEscape] at h
  simp only [Bool.or_eq_true, decide_eq_true_eq, beq_iff_eq] at h
  rcases h with ((((h | h) | h) | h) | h) | h
  · omega
  · subst h; decide
  · subst h; decide
  · subst h; decide
  · omega
  · omega

/-- Parsing one escaped character undoes the escaping. -/
theorem parseStr_escape (c : Char) (fuel : Nat) (tail : GoString) :
    parseStr (fuel + 1) (escapeChar c ++ tail) = (consFst c) <$> parseStr fuel tail := by
  by_cases h1 : c = '"'
  · subst h1
    simp [escapeChar, parseStr, unescapeChar]
  · by_cases h2 : c = '\\'
    · subst h2
      simp [escapeChar, parseStr, unescapeChar]
    · by_cases h3 : c = '\n'
      · subst h3
        simp [escapeChar, parseStr, unescapeChar]
      · by_cases h4 : c = '\r'
        · subst h4
          simp [escapeChar, parseStr, unescapeChar]
        · by_cases h5 : c = '\t'
          · subst h5
            simp [escapeChar, parseStr, unescapeChar]
          · by_cases h6 : needsUEscape c = true
            · have hlt := needsUEscape_lt c h6
              have henc : escapeChar c =
                  ['\\', 'u', hexDigit (charVal c / 4096 % 16), hexDigit (charVal c / 256 % 16),
                   hexDigit (charVal c / 16 % 16), hexDigit (charVal c % 16)] := by
                rw [escapeChar, if_neg h1, if_neg h2, if_neg h3, if_neg h4, if_neg h5, if_pos h6]
              rw [henc]
              show parseStr (fuel + 1) ('\\' :: 'u' :: hexDigit (charVal c / 4096 % 16) ::
                hexDigit (charVal c / 256 % 16) :: hexDigit (charVal c / 16 % 16) ::
                hexDigit (charVal c % 16) :: tail) = _
              rw [parseStr, hex4_hexDigits (charVal c) (by omega)]
              dsimp only []
              rw [if_neg (by omega), if_neg (by omega), char_ofNat_charVal]
            · have henc : escapeChar c = [c] := by
                rw [escapeChar, if_neg h1, if_neg h2, if_neg h3, if_neg h4, if_neg h5, if_neg h6]
              rw [henc]
              have hctl : ¬(charVal c < 0x20) := by
                intro hlt
                exact h6 (by rw [needsUEscape]; simp [hlt])
              show parseStr (fuel + 1) (c :: tail) = _
              simp [parseStr, h1, h2, hctl]

/-- Parsing a fully escaped string body stops exactly at the closing quote. -/
theorem parseStr_render : ∀ (s : GoString) (fuel : Nat) (tail : GoString),
    s.length < fuel → parseStr fuel (s.flatMap escapeChar ++ '"' :: tail) = .ok (s, tail)
  | [], fuel, tail, hf => by
      obtain ⟨f, rfl⟩ : ∃ f, fuel = f + 1 := ⟨fuel - 1, by omega⟩
      show parseStr (f + 1) ('"' :: tail) = .ok ([], tail)
      simp [parseStr]
  | c :: rest, fuel, tail, hf => by
      obtain ⟨f, rfl⟩ : ∃ f, fuel = f + 1 := ⟨fuel - 1, by omega⟩
      have ih := parseStr_render rest f tail (by simp at hf; omega)
      rw [List.flatMap_cons, List.append_assoc, parseStr_escape c f, ih]
      rfl


/-- Inserting a fresh key appends it. -/
theorem insertField_fresh (fs : Fields) (k : GoString) (v : JsonValue)
    (h : k ∉ fs.map Prod.fst) : insertField fs k v = fs ++ [(k, v)] := by
  induction fs with
  | nil => rfl
  | cons kv rest ih =>
      obtain ⟨k2, v2⟩ := kv
      simp only [List.map_cons, List.mem_cons] at h
      push_neg at h
      rw [insertField, if_neg (fun e => h.1 e.symm), List.cons_append, ih h.2]

/-- Folding members with pairwise-distinct keys into a map keeps them all,
in order, after any already-collected prefix of other keys. -/
theorem buildMap_fold (ms : Fields) : ∀ acc : Fields,
    (∀ kv ∈ ms, kv.1 ∉ acc.map Prod.fst) → nodupKeyList (ms.map Prod.fst) = true →
    ms.foldl (fun a kv => insertField a kv.1 kv.2) acc = acc ++ ms := by
  induction ms with
  | nil => simp
  | cons kv rest ih =>
      intro acc hfresh hnd
      obtain ⟨k, v⟩ := kv
      simp only [List.map_cons, nodupKeyList, Bool.and_eq_true, Bool.not_eq_true'] at hnd
      rw [List.foldl_cons]
      dsimp only []
      rw [insertField_fresh acc k v (hfresh (k, v) (by simp))]
      rw [ih (acc ++ [(k, v)]) ?_ hnd.2]
      · simp
      · intro kv2 h2
        simp only [List.map_append, List.mem_append, List.map_cons, List.map_nil,
          List.mem_singleton, not_or]
        refine ⟨hfresh kv2 (by simp [h2]), ?_⟩
        intro he
        have hmem : k ∈ rest.map Prod.fst := by
          rw [← he]
          exact List.mem_map_of_mem Prod.fst h2
        have hcon := hnd.1
        simp only [List.contains_eq_any_beq, List.any_eq_false] at hcon
        have := hcon k hmem
        simp at this

/-- A decoded member list with pairwise-distinct keys maps to itself. -/
theorem buildMap_nodup (ms : Fields) (h : nodupKeyList (ms.map Prod.fst) = true) :
    buildMap ms = ms := by
  rw [buildMap, buildMap_fold ms [] (by simp) h]
  rfl

/-- A digit character is not whitespace and closes nothing. -/
theorem digit_head_props (c : Char) (h : isDigit10 c = true) :
    isJsonWs c = false ∧ ¬(c = ']') ∧ ¬(c = rbrace) := by
  refine ⟨?_, fun e => absurd (e ▸ h) (by decide), fun e => absurd (e ▸ h) (by decide)⟩
  simp only [isJsonWs, Bool.or_eq_false_iff, beq_eq_false_iff_ne]
  exact ⟨⟨⟨fun e => absurd (e ▸ h) (by decide), fun e => absurd (e ▸ h) (by decide)⟩,
    fun e => absurd (e ▸ h) (by decide)⟩, fun e => absurd (e ▸ h) (by decide)⟩

/-- Every rendered value begins with a character that is neither whitespace
nor a closing bracket or brace. -/
theorem marshal_head (v : JsonValue) :
    ∃ c t, jsonMarshal v = c :: t ∧ isJsonWs c = false ∧ ¬(c = ']') ∧ ¬(c = rbrace) := by
  cases v with
  | null => refine ⟨'n', _, rfl, ?_, ?_, ?_⟩ <;> decide
  | bool b =>
      cases b with
      | true => refine ⟨'t', _, rfl, ?_, ?_, ?_⟩ <;> decide
      | false => refine ⟨'f', _, rfl, ?_, ?_, ?_⟩ <;> decide
  | str s => refine ⟨'"', _, rfl, ?_, ?_, ?_⟩ <;> decide
  | arr xs => refine ⟨'[', _, rfl, ?_, ?_, ?_⟩ <;> decide
  | obj fs => refine ⟨lbrace, _, rfl, ?_, ?_, ?_⟩ <;> decide
  | num n =>
      by_cases hneg : n < 0
      · refine ⟨'-', natDecimal n.natAbs, ?_, by decide, by decide, by decide⟩
        show intDecimal n = _
        rw [intDecimal, if_pos hneg]
        rfl
      · obtain ⟨d, ds, heq⟩ : ∃ d ds, natDecimal n.natAbs = d :: ds := by
          rcases hh : natDecimal n.natAbs with _ | ⟨d, ds⟩
          · exact absurd hh (natDigits_ne_nil _ _ [])
          · exact ⟨d, ds, rfl⟩
        have hdig : isDigit10 d = true := by
          have heq2 : natDigits n.natAbs n.natAbs [] = d :: ds := heq
          exact natDigits_all_digits n.natAbs n.natAbs (Nat.le_refl _) d (by rw [heq2]; simp)
        obtain ⟨hw, hb, hr⟩ := digit_head_props d hdig
        refine ⟨d, ds, ?_, hw, hb, hr⟩
        show intDecimal n = _
        rw [intDecimal, if_neg hneg, heq]
        rfl


/-- Skipping whitespace before a non-whitespace head is the identity. -/
theorem skipJsonWs_cons (c : Char) (t : GoString) (h : isJsonWs c = false) :
    skipJsonWs (c :: t) = c :: t := by
  simp [skipJsonWs, List.dropWhile_cons, h]

/-- Rendered output never starts with whitespace. -/
theorem skipJsonWs_marshal (v : JsonValue) (x : GoString) :
    skipJsonWs (jsonMarshal v ++ x) = jsonMarshal v ++ x := by
  obtain ⟨c, t, heq, hws, _, _⟩ := marshal_head v
  rw [heq, List.cons_append, skipJsonWs_cons _ _ hws]

/-- Escaping never shortens a string. -/
theorem escape_length_ge : ∀ s : GoString, s.length ≤ (s.flatMap escapeChar).length
  | [] => Nat.le_refl 0
  | c :: rest => by
      have ih := escape_length_ge rest
      have hne : escapeChar c ≠ [] := by
        rw [escapeChar]
        split
        · simp
        · split
          · simp
          · split
            · simp
            · split
              · simp
              · split
                · simp
                · split
                  · simp
                  · simp
      rw [List.flatMap_cons]
      rcases hh : escapeChar c with _ | ⟨e, es⟩
      · exact absurd hh hne
      · simp only [List.length_cons, List.cons_append, List.length_append]
        omega

/-- A head that cannot extend a number makes a delimiter. -/
theorem numDelim_cons (c : Char) (t : GoString)
    (h : (isDigit10 c || c == '.' || c == 'e' || c == 'E') = false) :
    numDelim (c :: t) = true := by
  simp only [numDelim, h]
  rfl

/-- Digits start none of the keyword, string, array, or object forms. -/
theorem digit_not_starts (c : Char) (h : isDigit10 c = true) :
    ¬(c = 'n') ∧ ¬(c = 't') ∧ ¬(c = 'f') ∧ ¬(c = '"') ∧ ¬(c = '[') ∧ ¬(c = lbrace) := by
  refine ⟨?_, ?_, ?_, ?_, ?_, ?_⟩ <;> (intro e; exact absurd (e ▸ h) (by decide))

/-- The parser's number path: a value whose input starts with a sign or
digit is handed to the integer scanner. -/
theorem parseVal_num_step (f : Nat) (c0 : Char) (t : GoString)
    (hws : isJsonWs c0 = false) (hn : ¬(c0 = 'n')) (ht : ¬(c0 = 't'))
    (hf : ¬(c0 = 'f')) (hq : ¬(c0 = '"')) (hbk : ¬(c0 = '[')) (hbc : ¬(c0 = lbrace))
    (hnum : c0 = '-' ∨ isDigit10 c0 = true) :
    parseVal (f + 1) (c0 :: t) =
      match parseIntNum (c0 :: t) with
      | .ok (n, r') => .ok (.num n, r')
      | .error e => .error e := by
  rw [parseVal, skipJsonWs_cons c0 t hws]
  simp [hn, ht, hf, hq, hbk, hbc, hnum]


mutual
/-- Parsing a rendered value recovers it exactly, for any delimiter-safe
remainder, with fuel beyond the rendered length. -/
theorem rt_val : ∀ (v : JsonValue) (fuel : Nat) (rest : GoString),
    nodupJson v = true → (jsonMarshal v).length < fuel → numDelim rest = true →
    parseVal fuel (jsonMarshal v ++ rest) = .ok (v, rest)
  | .null, fuel, rest, _, hf, _ => by
      obtain ⟨f, rfl⟩ : ∃ f, fuel = f + 1 := ⟨fuel - 1, by omega⟩
      have henc : jsonMarshal .null ++ rest = 'n' :: 'u' :: 'l' :: 'l' :: rest := by
        simp [jsonMarshal]
      rw [henc, parseVal, skipJsonWs_cons _ _ (by decide)]
      rfl
  | .bool true, fuel, rest, _, hf, _ => by
      obtain ⟨f, rfl⟩ : ∃ f, fuel = f + 1 := ⟨fuel - 1, by omega⟩
      have henc : jsonMarshal (.bool true) ++ rest = 't' :: 'r' :: 'u' :: 'e' :: rest := by
        simp [jsonMarshal]
      rw [henc, parseVal, skipJsonWs_cons _ _ (by decide)]
      rfl
  | .bool false, fuel, rest, _, hf, _ => by
      obtain ⟨f, rfl⟩ : ∃ f, fuel = f + 1 := ⟨fuel - 1, by omega⟩
      have henc : jsonMarshal (.bool false) ++ rest = 'f' :: 'a' :: 'l' :: 's' :: 'e' :: rest := by
        simp [jsonMarshal]
      rw [henc, parseVal, skipJsonWs_cons _ _ (by decide)]
      rfl
  | .str s, fuel, rest, _, hf, _ => by
      obtain ⟨f, rfl⟩ : ∃ f, fuel = f + 1 := ⟨fuel - 1, by omega⟩
      have hrlen := escape_length_ge s
      have henc : jsonMarshal (.str s) ++ rest =
          '"' :: (s.flatMap escapeChar ++ '"' :: rest) := by
        simp [jsonMarshal, renderStr]
      have hlen : s.length < (s.flatMap escapeChar ++ '"' :: rest).length + 1 := by
        simp only [List.length_append, List.length_cons]
        omega
      have hps := parseStr_render s ((s.flatMap escapeChar ++ '"' :: rest).length + 1) rest hlen
      rw [henc, parseVal, skipJsonWs_cons _ _ (by decide)]
      simp at hps
      simp [hps]
  | .num n, fuel, rest, _, hf, hr => by
      obtain ⟨f, rfl⟩ : ∃ f, fuel = f + 1 := ⟨fuel - 1, by omega⟩
      have hmar : jsonMarshal (.num n) = intDecimal n := by simp [jsonMarshal]
      have hnum := parseIntNum_intDecimal n rest hr
      by_cases hneg : n < 0
      · have henc : jsonMarshal (.num n) ++ rest = '-' :: (natDecimal n.natAbs ++ rest) := by
          rw [hmar, intDecimal, if_pos hneg]
          simp
        have hback : '-' :: (natDecimal n.natAbs ++ rest) = intDecimal n ++ rest := by
          rw [intDecimal, if_pos hneg]
          simp
        rw [henc, parseVal_num_step f '-' _ (by decide) (by decide) (by decide) (by decide)
          (by decide) (by decide) (by decide) (Or.inl rfl), hback, hnum]
      · obtain ⟨d, ds, heq⟩ : ∃ d ds, natDecimal n.natAbs = d :: ds := by
          rcases hh : natDecimal n.natAbs with _ | ⟨d, ds⟩
          · exact absurd hh (natDigits_ne_nil _ _ [])
          · exact ⟨d, ds, rfl⟩
        have hdig : isDigit10 d = true := by
          have heq2 : natDigits n.natAbs n.natAbs [] = d :: ds := heq
          exact natDigits_all_digits n.natAbs n.natAbs (Nat.le_refl _) d (by rw [heq2]; simp)
        obtain ⟨hw, _, _⟩ := digit_head_props d hdig
        obtain ⟨h1, h2, h3, h4, h5, h6⟩ := digit_not_starts d hdig
        have henc : jsonMarshal (.num n) ++ rest = d :: (ds ++ rest) := by
          rw [hmar, intDecimal, if_neg hneg, heq]
          simp
        have hback : d :: (ds ++ rest) = intDecimal n ++ rest := by
          rw [intDecimal, if_neg hneg, heq]
          simp
        rw [henc, parseVal_num_step f d _ hw h1 h2 h3 h4 h5 h6 (Or.inr hdig), hback, hnum]
  | .arr [], fuel, rest, _, hf, _ => by
      obtain ⟨f, rfl⟩ : ∃ f, fuel = f + 1 := ⟨fuel - 1, by omega⟩
      have henc : jsonMarshal (.arr []) ++ rest = '[' :: ']' :: rest := by
        simp [jsonMarshal, marshalElems]
      rw [henc, parseVal, skipJsonWs_cons _ _ (by decide)]
      rfl
  | .arr (e :: es), fuel, rest, hn, hf, _ => by
      obtain ⟨f, rfl⟩ : ∃ f, fuel = f + 1 := ⟨fuel - 1, by omega⟩
      have hmar : jsonMarshal (.arr (e :: es)) = '[' :: (marshalElems (e :: es) ++ [']']) := by
        simp [jsonMarshal]
      have hlen2 : (marshalElems (e :: es)).length + 1 < f := by
        have := congrArg List.length hmar
        simp only [List.length_cons, List.length_append, List.length_singleton] at this
        omega
      have hnd : nodupElems (e :: es) = true := by
        simpa [nodupJson] using hn
      have key := rt_elems e es f rest hnd hlen2
      obtain ⟨c, t, hhead, hws, hnb, _⟩ := marshal_head e
      have hu : ∃ u, marshalElems (e :: es) ++ ']' :: rest = c :: u := by
        cases es with
        | nil =>
            refine ⟨t ++ ']' :: rest, ?_⟩
            show marshalElems [e] ++ ']' :: rest = _
            rw [show marshalElems [e] = jsonMarshal e from rfl, hhead]
            simp
        | cons y ys =>
            refine ⟨t ++ ',' :: marshalElems (y :: ys) ++ ']' :: rest, ?_⟩
            show marshalElems (e :: y :: ys) ++ ']' :: rest = _
            rw [show marshalElems (e :: y :: ys) =
              jsonMarshal e ++ ',' :: marshalElems (y :: ys) from rfl, hhead]
            simp
      obtain ⟨u, hu⟩ := hu
      have hsw2 : skipJsonWs (marshalElems (e :: es) ++ ']' :: rest) = c :: u := by
        rw [hu]
        exact skipJsonWs_cons _ _ hws
      have key2 : parseElems f (c :: u) = .ok (e :: es, rest) := by
        rw [← hu]
        exact key
      have henc : jsonMarshal (.arr (e :: es)) ++ rest =
          '[' :: (marshalElems (e :: es) ++ ']' :: rest) := by
        rw [hmar]
        simp
      rw [henc, parseVal, skipJsonWs_cons _ _ (by decide)]
      simp [hsw2, hnb, key2]
  | .obj [], fuel, rest, _, hf, _ => by
      obtain ⟨f, rfl⟩ : ∃ f, fuel = f + 1 := ⟨fuel - 1, by omega⟩
      have henc : jsonMarshal (.obj []) ++ rest = lbrace :: rbrace :: rest := by
        simp [jsonMarshal, marshalFields]
      rw [henc, parseVal, skipJsonWs_cons _ _ (by decide)]
      rfl
  | .obj (kv :: ms), fuel, rest, hn, hf, _ => by
      obtain ⟨f, rfl⟩ : ∃ f, fuel = f + 1 := ⟨fuel - 1, by omega⟩
      have hmar : jsonMarshal (.obj (kv :: ms)) =
          lbrace :: (marshalFields (kv :: ms) ++ [rbrace]) := by
        simp [jsonMarshal]
      have hlen2 : (marshalFields (kv :: ms)).length + 1 < f := by
        have := congrArg List.length hmar
        simp only [List.length_cons, List.length_append, List.length_singleton] at this
        omega
      have hn2 : nodupKeyList ((kv :: ms).map Prod.fst) = true ∧
          nodupFields (kv :: ms) = true := by
        have := hn
        simp only [nodupJson, Bool.and_eq_true] at this
        exact this
      have key := rt_members kv ms f rest hn2.2 hlen2
      obtain ⟨k, v⟩ := kv
      have hu : ∃ u, marshalFields ((k, v) :: ms) ++ rbrace :: rest = '"' :: u := by
        cases ms with
        | nil =>
            refine ⟨k.flatMap escapeChar ++ '"' :: ':' :: (jsonMarshal v ++ rbrace :: rest), ?_⟩
            show marshalFields [(k, v)] ++ rbrace :: rest = _
            rw [show marshalFields [(k, v)] = renderStr k ++ ':' :: jsonMarshal v from rfl,
              renderStr]
            simp
        | cons m ms2 =>
            refine ⟨k.flatMap escapeChar ++ '"' :: ':' :: (jsonMarshal v ++ ',' ::
              (marshalFields (m :: ms2) ++ rbrace :: rest)), ?_⟩
            show marshalFields ((k, v) :: m :: ms2) ++ rbrace :: rest = _
            rw [show marshalFields ((k, v) :: m :: ms2) =
              renderStr k ++ ':' :: jsonMarshal v ++ ',' :: marshalFields (m :: ms2) from rfl,
              renderStr]
            simp
      obtain ⟨u, hu⟩ := hu
      have hsw2 : skipJsonWs (marshalFields ((k, v) :: ms) ++ rbrace :: rest) = '"' :: u := by
        rw [hu]
        exact skipJsonWs_cons _ _ (by decide)
      have key2 : parseMembers f ('"' :: u) = .ok ((k, v) :: ms, rest) := by
        rw [← hu]
        exact key
      have hbm := buildMap_nodup ((k, v) :: ms) hn2.1
      have henc : jsonMarshal (.obj ((k, v) :: ms)) ++ rest =
          lbrace :: (marshalFields ((k, v) :: ms) ++ rbrace :: rest) := by
        rw [hmar]
        simp
      rw [henc, parseVal, skipJsonWs_cons _ _ (by decide)]
      show (match skipJsonWs (marshalFields ((k, v) :: ms) ++ rbrace :: rest) with
        | [] => Except.error JsonErr.badSyntax
        | c2 :: r2 =>
          if c2 = rbrace then Except.ok (JsonValue.obj [], r2)
          else
            match parseMembers f (c2 :: r2) with
            | Except.ok (fs, r3) => Except.ok (JsonValue.obj (buildMap fs), r3)
            | Except.error e => Except.error e) =
        Except.ok (JsonValue.obj ((k, v) :: ms), rest)
      rw [hsw2]
      dsimp only []
      rw [if_neg (by decide : ¬(('"' : Char) = rbrace)), key2]
      dsimp only []
      rw [hbm]
  termination_by v _ _ _ _ _ => sizeOf v

/-- Parsing rendered elements up to the closing bracket recovers them. -/
theorem rt_elems : ∀ (x : JsonValue) (xs : List JsonValue) (fuel : Nat) (rest : GoString),
    nodupElems (x :: xs) = true → (marshalElems (x :: xs)).length + 1 < fuel →
    parseElems fuel (marshalElems (x :: xs) ++ ']' :: rest) = .ok (x :: xs, rest)
  | x, [], fuel, rest, hn, hf => by
      obtain ⟨f, rfl⟩ : ∃ f, fuel = f + 1 := ⟨fuel - 1, by omega⟩
      have hnx : nodupJson x = true := by
        simpa [nodupElems] using hn
      have hflen : (jsonMarshal x).length < f := by
        have hsz : marshalElems [x] = jsonMarshal x := rfl
        rw [hsz] at hf
        omega
      have hv := rt_val x f (']' :: rest) hnx hflen (numDelim_cons _ _ (by decide))
      have hsw : skipJsonWs (']' :: rest) = ']' :: rest := skipJsonWs_cons _ _ (by decide)
      have henc : marshalElems [x] ++ ']' :: rest = jsonMarshal x ++ ']' :: rest := rfl
      rw [henc, parseElems, hv]
      simp [hsw]
  | x, y :: ys, fuel, rest, hn, hf => by
      obtain ⟨f, rfl⟩ : ∃ f, fuel = f + 1 := ⟨fuel - 1, by omega⟩
      have hnx : nodupJson x = true := by
        simp only [nodupElems, Bool.and_eq_true] at hn
        exact hn.1
      have hnrest : nodupElems (y :: ys) = true := by
        simp only [nodupElems, Bool.and_eq_true] at hn ⊢
        exact hn.2
      have hsz : marshalElems (x :: y :: ys) = jsonMarshal x ++ ',' :: marshalElems (y :: ys) :=
        rfl
      have hflen : (jsonMarshal x).length < f := by
        rw [hsz] at hf
        simp only [List.length_append, List.length_cons] at hf
        omega
      have hflen2 : (marshalElems (y :: ys)).length + 1 < f := by
        rw [hsz] at hf
        simp only [List.length_append, List.length_cons] at hf
        omega
      have hv := rt_val x f (',' :: (marshalElems (y :: ys) ++ ']' :: rest)) hnx hflen
        (numDelim_cons _ _ (by decide))
      have key := rt_elems y ys f rest hnrest hflen2
      have hsw : skipJsonWs (',' :: (marshalElems (y :: ys) ++ ']' :: rest)) =
          ',' :: (marshalElems (y :: ys) ++ ']' :: rest) := skipJsonWs_cons _ _ (by decide)
      have henc : marshalElems (x :: y :: ys) ++ ']' :: rest =
          jsonMarshal x ++ ',' :: (marshalElems (y :: ys) ++ ']' :: rest) := by
        rw [hsz]
        simp
      rw [henc, parseElems, hv]
      simp [hsw, key]
  termination_by x xs _ _ _ _ => sizeOf x + sizeOf xs

/-- Parsing rendered members up to the closing brace recovers them. -/
theorem rt_members : ∀ (kv : GoString × JsonValue) (ms : Fields) (fuel : Nat) (rest : GoString),
    nodupFields (kv :: ms) = true → (marshalFields (kv :: ms)).length + 1 < fuel →
    parseMembers fuel (marshalFields (kv :: ms) ++ rbrace :: rest) = .ok (kv :: ms, rest)
  | (k, v), [], fuel, rest, hn, hf => by
      obtain ⟨f, rfl⟩ : ∃ f, fuel = f + 1 := ⟨fuel - 1, by omega⟩
      have hnv : nodupJson v = true := by
        simpa [nodupFields] using hn
      have hsz : marshalFields [(k, v)] = renderStr k ++ ':' :: jsonMarshal v := rfl
      have hflen : (jsonMarshal v).length < f := by
        rw [hsz] at hf
        simp only [renderStr, List.length_append, List.length_cons] at hf
        omega
      have hkey := escape_length_ge k
      have hv := rt_val v f (rbrace :: rest) hnv hflen (numDelim_cons _ _ (by decide))
      have henc : marshalFields [(k, v)] ++ rbrace :: rest =
          '"' :: (k.flatMap escapeChar ++ '"' ::
            (':' :: (jsonMarshal v ++ rbrace :: rest))) := by
        rw [hsz, renderStr]
        simp
      have hslen : k.length < (k.flatMap escapeChar ++ '"' ::
          (':' :: (jsonMarshal v ++ rbrace :: rest))).length + 1 := by
        simp only [List.length_append, List.length_cons]
        omega
      have hps := parseStr_render k ((k.flatMap escapeChar ++ '"' ::
          (':' :: (jsonMarshal v ++ rbrace :: rest))).length + 1)
        (':' :: (jsonMarshal v ++ rbrace :: rest)) hslen
      have hsw1 : skipJsonWs (':' :: (jsonMarshal v ++ rbrace :: rest)) =
          ':' :: (jsonMarshal v ++ rbrace :: rest) := skipJsonWs_cons _ _ (by decide)
      have hsw2 : skipJsonWs (rbrace :: rest) = rbrace :: rest :=
        skipJsonWs_cons _ _ (by decide)
      rw [henc, parseMembers, skipJsonWs_cons _ _ (by decide)]
      simp at hps
      simp [hps, hsw1, hv, hsw2]
      rfl
  | (k, v), m :: ms2, fuel, rest, hn, hf => by
      obtain ⟨f, rfl⟩ : ∃ f, fuel = f + 1 := ⟨fuel - 1, by omega⟩
      have hnv : nodupJson v = true := by
        simp only [nodupFields, Bool.and_eq_true] at hn
        exact hn.1
      have hnrest : nodupFields (m :: ms2) = true := by
        simp only [nodupFields, Bool.and_eq_true] at hn ⊢
        exact hn.2
      have hsz : marshalFields ((k, v) :: m :: ms2) =
          renderStr k ++ ':' :: jsonMarshal v ++ ',' :: marshalFields (m :: ms2) := rfl
      have hflen : (jsonMarshal v).length < f := by
        rw [hsz] at hf
        simp only [renderStr, List.length_append, List.length_cons] at hf
        omega
      have hflen2 : (marshalFields (m :: ms2)).length + 1 < f := by
        rw [hsz] at hf
        simp only [renderStr, List.length_append, List.length_cons] at hf
        omega
      have hkey := escape_length_ge k
      have hv := rt_val v f (',' :: (marshalFields (m :: ms2) ++ rbrace :: rest)) hnv hflen
        (numDelim_cons _ _ (by decide))
      have key := rt_members m ms2 f rest hnrest hflen2
      have henc : marshalFields ((k, v) :: m :: ms2) ++ rbrace :: rest =
          '"' :: (k.flatMap escapeChar ++ '"' ::
            (':' :: (jsonMarshal v ++ ',' :: (marshalFields (m :: ms2) ++ rbrace :: rest)))) := by
        rw [hsz, renderStr]
        simp
      have hslen : k.length < (k.flatMap escapeChar ++ '"' ::
          (':' :: (jsonMarshal v ++ ',' :: (marshalFields (m :: ms2) ++ rbrace :: rest)))).length
            + 1 := by
        simp only [List.length_append, List.length_cons]
        omega
      have hps := parseStr_render k ((k.flatMap escapeChar ++ '"' ::
          (':' :: (jsonMarshal v ++ ',' ::
            (marshalFields (m :: ms2) ++ rbrace :: rest)))).length + 1)
        (':' :: (jsonMarshal v ++ ',' :: (marshalFields (m :: ms2) ++ rbrace :: rest))) hslen
      have hsw1 : skipJsonWs (':' :: (jsonMarshal v ++ ',' ::
          (marshalFields (m :: ms2) ++ rbrace :: rest))) =
          ':' :: (jsonMarshal v ++ ',' :: (marshalFields (m :: ms2) ++ rbrace :: rest)) :=
        skipJsonWs_cons _ _ (by decide)
      have hsw2 : skipJsonWs (',' :: (marshalFields (m :: ms2) ++ rbrace :: rest)) =
          ',' :: (marshalFields (m :: ms2) ++ rbrace :: rest) :=
        skipJsonWs_cons _ _ (by decide)
      rw [henc, parseMembers, skipJsonWs_cons _ _ (by decide)]
      simp at hps
      simp [hps, hsw1, hv, hsw2, key]
  termination_by kv ms _ _ _ _ => sizeOf kv + sizeOf ms
end

/-- Unmarshalling the marshalled form of an object with pairwise-distinct
keys (at every level) recovers the object's fields exactly. -/
theorem jsonUnmarshalObj_marshal (fs : Fields) (hn : nodupJson (.obj fs) = true) :
    jsonUnmarshalObj (jsonMarshal (.obj fs)) = .ok fs := by
  have h := rt_val (.obj fs) ((jsonMarshal (.obj fs)).length + 1) [] hn (by omega) rfl
  rw [List.append_nil] at h
  delta jsonUnmarshalObj
  rw [h]
  rfl

/-- Claim C6: for any two JSON objects (with the Go-map invariant that keys
are pairwise distinct at every level) and any dot-free signature text,
`ParseJWT` on the three-segment token `base64url(json(h)) ++ "." ++
base64url(json(p)) ++ "." ++ sig` succeeds and returns exactly the header
object, the payload object, and the signature. -/
theorem jwt_decode_roundtrip (hf pf : Fields) (sig : GoString)
    (hn1 : nodupJson (.obj hf) = true) (hn2 : nodupJson (.obj pf) = true)
    (hsig : '.' ∉ sig) :
    ParseJWT (jwtEncode hf pf sig) false = .ok ⟨hf, pf, sig⟩ := by
  have hb0 := utf8Encode_lt (jsonMarshal (.obj hf))
  have hb1 := utf8Encode_lt (jsonMarshal (.obj pf))
  have hd0 := base64urlEncode_no_dot _ hb0
  have hd1 := base64urlEncode_no_dot _ hb1
  have hsplit : splitOnDot (jwtEncode hf pf sig) =
      [base64urlEncode (utf8Encode (jsonMarshal (.obj hf))),
       base64urlEncode (utf8Encode (jsonMarshal (.obj pf))), sig] := by
    rw [jwtEncode, splitOnDot_append _ _ hd0, splitOnDot_append _ _ hd1,
      splitOnDot_no_dot sig hsig]
  delta ParseJWT
  rw [hsplit]
  dsimp only []
  rw [base64url_roundtrip _ hb0]
  dsimp only []
  rw [base64url_roundtrip _ hb1]
  dsimp only []
  rw [utf8_roundtrip]
  dsimp only []
  rw [jsonUnmarshalObj_marshal hf hn1]
  dsimp only []
  rw [utf8_roundtrip]
  dsimp only []
  rw [jsonUnmarshalObj_marshal pf hn2]
  rfl

/-- Witness for claim C6 at a concrete header, payload, and signature. -/
theorem jwt_decode_roundtrip_witness :
    nodupJson (.obj [(("alg".toList : GoString), JsonValue.str ("HS256".toList))]) = true ∧
    nodupJson (.obj [(("sub".toList : GoString), JsonValue.bool true)]) = true ∧
    '.' ∉ ("sig".toList : GoString) ∧
    ParseJWT (jwtEncode [(("alg".toList : GoString), JsonValue.str ("HS256".toList))]
        [(("sub".toList : GoString), JsonValue.bool true)] ("sig".toList)) false =
      .ok ⟨[("alg".toList, JsonValue.str ("HS256".toList))],
           [("sub".toList, JsonValue.bool true)], "sig".toList⟩ :=
  ⟨by decide, by decide, by decide,
   jwt_decode_roundtrip [(("alg".toList : GoString), JsonValue.str ("HS256".toList))]
     [(("sub".toList : GoString), JsonValue.bool true)] ("sig".toList)
     (by decide) (by decide) (by decide)⟩

end JwtPlugin
